import Mathlib

/-!
Verification of the gomon grafana datasource connection-correlation engine.

The definitions below are a shallow embedding of the Go sources:
* `connections` (src/pkg/connection.go) — the correlation pass that turns a
  process table into an ordered list of connections;
* the parts of the Go standard library it calls (`net.SplitHostPort`,
  `net.ParseIP`, the `net.IP` classification predicates and `String`);
* the edge-map construction of `Nodegraph` (plugin nodegraph source).

Go maps are embedded as association lists whose entries appear in insertion
order; since all results observed by the theorems are either sorted or are
key-set/membership facts, the unspecified Go map iteration order is modelled
by quantifying over the iteration order of the process table itself.
Panics (nil map entry dereference, slice index out of range) are modelled by
`Option`: `none` is a panic, which the deferred `recover` at the pass
boundary turns into the zero value of the result.
-/

set_option autoImplicit false

namespace Gomon

/-- Assoc-list update mirroring a Go map assignment `m[k] = v`: replaces the
value at the first occurrence of the key, otherwise appends the binding. -/
def setA {K V : Type} [DecidableEq K] : List (K × V) → K → V → List (K × V)
  | [], k, v => [(k, v)]
  | (k1, v1) :: rest, k, v =>
    if k1 = k then (k, v) :: rest else (k1, v1) :: setA rest k v

/-- Assoc-list lookup mirroring a Go map read `m[k]`. -/
def getA {K V : Type} [DecidableEq K] : List (K × V) → K → Option V
  | [], _ => none
  | (k1, v1) :: rest, k => if k1 = k then some v1 else getA rest k

/-- Insertion step of an insertion sort. -/
def insertLe {α : Type} (le : α → α → Bool) (a : α) : List α → List α
  | [] => [a]
  | b :: l => if le a b then a :: b :: l else b :: insertLe le a l

/-- Insertion sort. Go sorts with `sort.Slice`; on lists whose elements are
pairwise distinct (all uses here sort the key set of a map) every correct
sort produces the same output, so insertion sort is a faithful model. -/
def sortByLe {α : Type} (le : α → α → Bool) (l : List α) : List α :=
  l.foldr (insertLe le) []

/-! ### Go standard library: net.SplitHostPort -/

/-- Index of the first occurrence of a character. -/
def idxOfC : List Char → Char → Option Nat
  | [], _ => none
  | a :: l, c => if a = c then some 0 else (idxOfC l c).map (· + 1)

/-- Index of the last occurrence of a character (`last` in Go's net package). -/
def lastIdxOfC (l : List Char) (c : Char) : Option Nat :=
  (idxOfC l.reverse c).map (fun i => l.length - 1 - i)

/-- Port of Go `net.SplitHostPort` on character lists. `none` models a
returned error (in which case the host and port results are `""`). -/
def splitHostPortL (hp : List Char) : Option (List Char × List Char) :=
  match lastIdxOfC hp ':' with
  | none => none
  | some i =>
    if hp.head? = some '[' then
      match idxOfC hp ']' with
      | none => none
      | some e =>
        if e + 1 = hp.length then none
        else if e + 1 = i then
          -- host = hostPort[1:e], and no further '[' after 1 or ']' after e+1
          if (idxOfC (hp.drop 1) '[').isSome then none
          else if (idxOfC (hp.drop (e + 1)) ']').isSome then none
          else some ((hp.drop 1).take (e - 1), hp.drop (i + 1))
        else none
    else
      let host := hp.take i
      if (idxOfC host ':').isSome then none
      else if (idxOfC hp '[').isSome then none
      else if (idxOfC hp ']').isSome then none
      else some (host, hp.drop (i + 1))

/-- Go `net.SplitHostPort`, with the error collapsed to the zero values the
caller sees when it ignores the error (as `connections` does). -/
def goSplitHostPort (s : String) : String × String :=
  match splitHostPortL s.data with
  | none => ("", "")
  | some (h, p) => (⟨h⟩, ⟨p⟩)

/-! ### Go standard library: net.ParseIP and the net.IP predicates

An `IP` is modelled as the 16-byte slice Go's `ParseIP` returns, each byte a
`Nat`; `none` models the `nil` IP. -/

/-- Parse one decimal octet of a dotted quad: at least one digit, no leading
zero, value at most 255 (netip's `parseIPv4Fields`). Returns the rest. -/
def parseOctet (l : List Char) : Option (Nat × List Char) :=
  let ds := l.takeWhile Char.isDigit
  if ds.length = 0 then none
  else if 2 ≤ ds.length ∧ ds.head? = some '0' then none
  else
    let v := ds.foldl (fun a c => a * 10 + (c.toNat - 48)) 0
    if 255 < v then none else some (v, l.drop ds.length)

/-- Expect a literal dot. -/
def expectDot : List Char → Option (List Char)
  | '.' :: r => some r
  | _ => none

/-- Port of netip's `parseIPv4`: exactly four octets joined by dots. -/
def parseIPv4 (l : List Char) : Option (List Nat) := do
  let (a, r1) ← parseOctet l
  let r1 ← expectDot r1
  let (b, r2) ← parseOctet r1
  let r2 ← expectDot r2
  let (c, r3) ← parseOctet r2
  let r3 ← expectDot r3
  let (d, r4) ← parseOctet r3
  if r4 = [] then pure [a, b, c, d] else none

/-- Value of a hex digit. -/
def hexVal (c : Char) : Option Nat :=
  if Char.isDigit c then some (c.toNat - 48)
  else if 'a' ≤ c ∧ c ≤ 'f' then some (c.toNat - 97 + 10)
  else if 'A' ≤ c ∧ c ≤ 'F' then some (c.toNat - 65 + 10)
  else none

/-- Main loop of netip's `parseIPv6`, ported with explicit fuel (each
iteration consumes at least one character, so `length + 1` fuel suffices).
State: accumulated bytes, byte count, ellipsis position, remaining input. -/
def v6Loop : Nat → List Nat → Nat → Option Nat → List Char →
    Option (List Nat × Nat × Option Nat × List Char)
  | 0, _, _, _, _ => none
  | fuel + 1, ip, i, ell, s =>
    if 16 ≤ i then some (ip, i, ell, s)
    else
      let ds := s.takeWhile (fun c => (hexVal c).isSome)
      let off := ds.length
      let acc := ds.foldl (fun a c => a * 16 + (hexVal c).getD 0) 0
      if 65535 < acc then none
      else if off = 0 then none
      else if (s.drop off).head? = some '.' then
        if ell.isNone ∧ i ≠ 12 then none
        else if 16 < i + 4 then none
        else
          match parseIPv4 s with
          | none => none
          | some bs => some (ip ++ bs, i + 4, ell, [])
      else
        let ip2 := ip ++ [acc / 256, acc % 256]
        let i2 := i + 2
        let s2 := s.drop off
        if s2 = [] then some (ip2, i2, ell, s2)
        else if s2.head? ≠ some ':' then none
        else if s2.length = 1 then none
        else
          let s3 := s2.drop 1
          if s3.head? = some ':' then
            if ell.isSome then none
            else
              let s4 := s3.drop 1
              if s4 = [] then some (ip2, i2, some i2, s4)
              else v6Loop fuel ip2 i2 (some i2) s4
          else v6Loop fuel ip2 i2 ell s3

/-- Port of netip's `parseIPv6` (zones rejected, as `net.ParseIP` does). -/
def parseIPv6 (l : List Char) : Option (List Nat) :=
  if l.contains '%' then none
  else
    let lead := l.take 2 = [':', ':']
    let s0 := if lead then l.drop 2 else l
    let ell0 : Option Nat := if lead then some 0 else none
    if lead ∧ s0 = [] then some (List.replicate 16 0)
    else
      match v6Loop (s0.length + 1) [] 0 ell0 s0 with
      | none => none
      | some (ip, i, ell, s) =>
        if s ≠ [] then none
        else if i < 16 then
          match ell with
          | none => none
          | some e => some (ip.take e ++ List.replicate (16 - i) 0 ++ ip.drop e)
        else if ell.isSome then none
        else some ip

/-- Go's 16-byte representation of an IPv4 address (`v4InV6Prefix`). -/
def v4mapped : List Nat → List Nat
  | [a, b, c, d] => [0, 0, 0, 0, 0, 0, 0, 0, 0, 0, 255, 255, a, b, c, d]
  | l => l

/-- Port of Go `net.ParseIP`: scan for the first special character to decide
between the IPv4 and IPv6 grammars; `'%'` (a zone) yields `nil`. -/
def goParseIPL (l : List Char) : Option (List Nat) :=
  match l.find? (fun c => c = '.' || c = ':' || c = '%') with
  | some c =>
    if c = '.' then (parseIPv4 l).map v4mapped
    else if c = ':' then parseIPv6 l
    else none
  | none => none

/-- Go `net.ParseIP` on strings. -/
def goParseIP (s : String) : Option (List Nat) := goParseIPL s.data

/-- Go `net.IP.To4`. -/
def ipTo4 (ip : List Nat) : Option (List Nat) :=
  match ip with
  | [a, b, c, d] => some [a, b, c, d]
  | [b0, b1, b2, b3, b4, b5, b6, b7, b8, b9, b10, b11, a, b, c, d] =>
    if b0 = 0 ∧ b1 = 0 ∧ b2 = 0 ∧ b3 = 0 ∧ b4 = 0 ∧ b5 = 0 ∧ b6 = 0 ∧
        b7 = 0 ∧ b8 = 0 ∧ b9 = 0 ∧ b10 = 255 ∧ b11 = 255 then
      some [a, b, c, d]
    else none
  | _ => none

/-- Go `net.IP.IsLoopback` (on a possibly-nil IP). -/
def ipIsLoopback : Option (List Nat) → Bool
  | none => false
  | some ip =>
    match ipTo4 ip with
    | some (a :: _) => a = 127
    | some [] => false
    | none => ip = [0, 0, 0, 0, 0, 0, 0, 0, 0, 0, 0, 0, 0, 0, 0, 1]

/-- Go `net.IP.IsInterfaceLocalMulticast`. -/
def ipIsInterfaceLocalMulticast : Option (List Nat) → Bool
  | none => false
  | some ip =>
    ip.length = 16 && (ip.head?.getD 0 = 255 && ((ip.get? 1).getD 0) % 16 = 1)

/-- Go `net.IP.IsLinkLocalMulticast`. -/
def ipIsLinkLocalMulticast : Option (List Nat) → Bool
  | none => false
  | some ip =>
    match ipTo4 ip with
    | some (a :: b :: c :: _) => a = 224 && b = 0 && c = 0
    | some _ => false
    | none =>
      ip.length = 16 && (ip.head?.getD 0 = 255 && ((ip.get? 1).getD 0) % 16 = 2)

/-- Go `net.IP.IsLinkLocalUnicast`. -/
def ipIsLinkLocalUnicast : Option (List Nat) → Bool
  | none => false
  | some ip =>
    match ipTo4 ip with
    | some (a :: b :: _) => a = 169 && b = 254
    | some _ => false
    | none =>
      ip.length = 16 && (ip.head?.getD 0 = 254 && ((ip.get? 1).getD 0) / 64 = 2)

/-- Lowercase hex rendering of one 16-bit group (Go's `appendHex`). -/
def hexGroup (n : Nat) : List Char := Nat.toDigits 16 n

/-- The 8 16-bit groups of a 16-byte IP. -/
def groupsOf (ip : List Nat) : List Nat :=
  match ip with
  | [b0, b1, b2, b3, b4, b5, b6, b7, b8, b9, b10, b11, b12, b13, b14, b15] =>
    [b0 * 256 + b1, b2 * 256 + b3, b4 * 256 + b5, b6 * 256 + b7,
     b8 * 256 + b9, b10 * 256 + b11, b12 * 256 + b13, b14 * 256 + b15]
  | _ => []

/-- Length of the zero-group run starting at position `i`. -/
def zeroRunFrom (gs : List Nat) (i : Nat) : Nat :=
  ((gs.drop i).takeWhile (fun g => g = 0)).length

/-- Leftmost longest run of zero groups, kept only if at least two groups
long (Go `net.IP.String`'s `e0`/`e1` computation). Returns (start, length). -/
def bestZeroRun (gs : List Nat) : Option (Nat × Nat) :=
  let best := (List.range gs.length).foldl
    (fun b i =>
      let r := zeroRunFrom gs i
      if b.2 < r then (i, r) else b) (0, 0)
  if 2 ≤ best.2 then some best else none

/-- Rendering loop of Go `net.IP.String` for IPv6, with fuel. -/
def v6RenderAux (gs : List Nat) (run : Option (Nat × Nat)) :
    Nat → Nat → List Char
  | _, 0 => []
  | i, fuel + 1 =>
    if 8 ≤ i then []
    else
      match run with
      | some (s, n) =>
        if i = s then
          [':', ':'] ++
            (if 8 ≤ s + n then []
             else hexGroup ((gs.get? (s + n)).getD 0) ++
               v6RenderAux gs run (s + n + 1) fuel)
        else
          (if 0 < i then [':'] else []) ++ hexGroup ((gs.get? i).getD 0) ++
            v6RenderAux gs run (i + 1) fuel
      | none =>
        (if 0 < i then [':'] else []) ++ hexGroup ((gs.get? i).getD 0) ++
          v6RenderAux gs run (i + 1) fuel

/-- Decimal rendering of a byte. -/
def decByte (n : Nat) : List Char := Nat.toDigits 10 n

/-- Go `net.IP.String` (on a possibly-nil IP): `"<nil>"` for nil, dotted quad
for (v4-mapped) IPv4, RFC 5952 compression for IPv6. -/
def goIPString (o : Option (List Nat)) : String :=
  match o with
  | none => "<nil>"
  | some ip =>
    match ipTo4 ip with
    | some [a, b, c, d] =>
      ⟨decByte a ++ ['.'] ++ decByte b ++ ['.'] ++ decByte c ++ ['.'] ++ decByte d⟩
    | some _ => ""
    | none =>
      if ip.length = 16 then
        let gs := groupsOf ip
        ⟨v6RenderAux gs (bestZeroRun gs) 0 9⟩
      else ""

/-! ### Data model of connection.go -/

/-- Process identifier (Go `Pid`, an integer type). -/
abbrev Pid := Int

/-- One open-descriptor record of a process (Go `Connection` in the process
package: descriptor number, type, name, self and peer endpoint strings). -/
structure GoConn where
  descriptor : Int
  type : String
  name : String
  self : String
  peer : String
  deriving DecidableEq, Repr, Inhabited

/-- The fields of a process-table entry used by `connections`
(Go `process`: `Ppid`, `Exec`, `Connections`). -/
structure GoProcess where
  ppid : Pid
  exec : String
  conns : List GoConn
  deriving DecidableEq, Repr, Inhabited

/-- Process table in iteration order. Go iterates a `map[Pid]*process` in an
unspecified order; theorems quantify over this order. A `Pid` absent from the
list models a missing map entry (a nil `*process`). -/
abbrev Table := List (Pid × GoProcess)

/-- One side of a connection (Go `endpoint`). -/
structure Endpoint where
  pid : Pid
  fd : Int
  command : String
  name : String
  deriving DecidableEq, Repr, Inhabited

/-- A resolved connection (Go `connection`). -/
structure Connection where
  ftype : String
  name : String
  self : Endpoint
  peer : Endpoint
  deriving DecidableEq, Repr, Inhabited

/-- The `[4]int` key of the `connm` map: self pid, self fd, peer pid, peer fd. -/
structure ConnKey where
  k0 : Int
  k1 : Int
  k2 : Int
  k3 : Int
  deriving DecidableEq, Repr, Inhabited

/-- The `connm` map of `connections`. -/
abbrev Connm := List (ConnKey × Connection)

/-- The endpoint map `epm`: endpoint string to (pid to descriptor indices). -/
abbrev Epm := List (String × List (Pid × List Nat))

def maxInt32 : Int := 2147483647

/-- One insertion into `epm`: `epm[self][pid] = append(epm[self][pid], i)`. -/
def epmAdd (epm : Epm) (key : String) (pid : Pid) (i : Nat) : Epm :=
  let inner := (getA epm key).getD []
  let ixs := (getA inner pid).getD []
  setA epm key (setA inner pid (ixs ++ [i]))

/-- Whether a descriptor type takes part in endpoint matching
(the `"FIFO", "PIPE", "TCP", "UDP", "unix"` case arms). -/
def isTransport (t : String) : Bool :=
  t = "FIFO" || t = "PIPE" || t = "TCP" || t = "UDP" || t = "unix"

/-- First loop of `connections`: build the map of all remote (peer)
intra-host endpoints from every process's descriptors. -/
def buildEpm (pt : Table) : Epm :=
  pt.foldl
    (fun epm e =>
      e.2.conns.enum.foldl
        (fun epm ic =>
          if ic.2.self = "" then epm
          else if isTransport ic.2.type then
            epmAdd epm (ic.2.type ++ ": " ++ ic.2.self) e.1 ic.1
          else epm)
        epm)
    []

/-- The reciprocal-match test of `connections` (connection.go lines 205-208):
`conn` is the descriptor being resolved, `rconn` a candidate found under key
`conn.Type + ": " + conn.Peer`. -/
def reciprocal (conn rconn : GoConn) : Bool :=
  conn.type = rconn.type && conn.peer = rconn.self &&
    (rconn.peer = conn.self ||
      (rconn.peer = "" && (conn.type = "PSXSHM" || conn.type = "unix")))

/-- Examination of one descriptor index `i` of candidate process `rpid`
(the body of the `for _, i := range ix` loop): emit a connection when the
record is a reciprocal match and the pair was not already recorded in
either orientation. `none` models a panic (a nil `pt[rpid]` dereference, or
an out-of-range descriptor index). -/
def candEmit (pt : Table) (pid : Pid) (fd : Int) (conn : GoConn)
    (p : GoProcess) (rpid : Pid) (connm : Connm) (i : Nat) : Option Connm :=
  match getA pt rpid with
  | none => none
  | some rp =>
    match rp.conns.get? i with
    | none => none
    | some rconn =>
      if !reciprocal conn rconn then some connm
      else if (getA connm ⟨pid, fd, rpid, rconn.descriptor⟩).isSome then
        some connm
      else if (getA connm ⟨rpid, rconn.descriptor, pid, fd⟩).isSome then
        some connm
      else
        some (setA connm ⟨pid, fd, rpid, rconn.descriptor⟩
          { ftype := conn.type, name := conn.name,
            self := ⟨pid, fd, p.exec, conn.self⟩,
            peer := ⟨rpid, rconn.descriptor, rp.exec, conn.peer⟩ })

/-- Processing of one candidate owning process `rpid` found in the endpoint
map: skip self-matches, then try every descriptor index recorded there. -/
def candidateStep (pt : Table) (pid : Pid) (fd : Int) (conn : GoConn)
    (p : GoProcess) (key : String) (epm : Epm) (rpid : Pid) (connm : Connm) :
    Option Connm :=
  if rpid = pid then some connm
  else
    ((getA ((getA epm key).getD []) rpid).getD []).foldlM
      (candEmit pt pid fd conn p rpid) connm

/-- The locality test applied to a peer endpoint string that missed the
endpoint map (connection.go lines 164-169): split off the host, parse it as
an IP, and check the local-address sets and the loopback/multicast/
link-local classifications. -/
def hostIsLocal (localIps interfaces : List String) (peer : String) : Bool :=
  let hp := goSplitHostPort peer
  let ip := goParseIP hp.1
  localIps.contains (goIPString ip) || interfaces.contains (goIPString ip) ||
    ipIsLoopback ip || ipIsInterfaceLocalMulticast ip ||
    ipIsLinkLocalMulticast ip || ipIsLinkLocalUnicast ip

/-- Processing of one descriptor of process `pid` (the `switch conn.Type`
body of the second loop of `connections`). -/
def descStep (localIps interfaces : List String) (epm : Epm) (pt : Table)
    (pid : Pid) (p : GoProcess) (connm : Connm) (conn : GoConn) :
    Option Connm :=
  let fd := conn.descriptor
  let self : Endpoint := ⟨pid, fd, p.exec, conn.self⟩
  if conn.type = "NUL" then some connm
  else if conn.type = "REG" || conn.type = "PSXSHM" then
    some (setA connm ⟨pid, fd, maxInt32, 0⟩
      { ftype := conn.type, name := conn.name, self := self,
        peer := ⟨maxInt32, 0, "", conn.name⟩ })
  else if conn.type = "systm" then
    some (setA connm ⟨pid, fd, 0, 0⟩
      { ftype := conn.type, name := conn.name, self := self,
        peer := ⟨0, 0, conn.peer, conn.name⟩ })
  else if isTransport conn.type then
    if conn.peer = "" then some connm
    else if (getA epm (conn.type ++ ": " ++ conn.peer)).isNone then
      if conn.type = "TCP" || conn.type = "UDP" then
        if !hostIsLocal localIps interfaces conn.peer then
          some (setA connm ⟨-1, -1, pid, fd⟩
            { ftype := conn.type, name := conn.name,
              self := ⟨-1, -1, (goSplitHostPort conn.peer).2, conn.peer⟩,
              peer := self })
        else some connm
      else some connm
    else
      let key := conn.type ++ ": " ++ conn.peer
      let rpids := sortByLe (fun a b => decide (a ≤ b))
        (((getA epm key).getD []).map Prod.fst)
      rpids.foldlM (fun cm rpid => candidateStep pt pid fd conn p key epm rpid cm)
        connm
  else some connm

/-- The synthetic parent connection `connections` records for table entry
`e` whose parent entry is `pp` (connection.go lines 108-123). -/
def parentVal (e : Pid × GoProcess) (pp : GoProcess) : Connection :=
  { ftype := "parent:" ++ toString e.2.ppid,
    name := "child:" ++ toString e.1,
    self := ⟨e.2.ppid, -1, pp.exec, "parent"⟩,
    peer := ⟨e.1, -1, e.2.exec, "child"⟩ }

/-- Processing of one process of the second loop of `connections`: record
the synthetic parent connection (dereferencing the parent's table entry,
which panics when the parent pid has no entry), then process every
descriptor. -/
def procStep (localIps interfaces : List String) (epm : Epm) (pt : Table)
    (connm : Connm) (e : Pid × GoProcess) : Option Connm :=
  match getA pt e.2.ppid with
  | none => none
  | some pp =>
    e.2.conns.foldlM (descStep localIps interfaces epm pt e.1 e.2)
      (setA connm ⟨e.2.ppid, -1, e.1, -1⟩ (parentVal e pp))

/-- Comparator of the final `sort.Slice` (connection.go lines 254-258):
self pid, then peer pid, then self fd, then peer fd. -/
def goKeyLess (a b : ConnKey) : Bool :=
  a.k0 < b.k0 ||
    (a.k0 = b.k0 && (a.k2 < b.k2 ||
      (a.k2 = b.k2 && (a.k1 < b.k1 ||
        (a.k1 = b.k1 && a.k3 < b.k3)))))

/-- Total order used to sort the key set (the unique sorted permutation
`sort.Slice` produces on the pairwise-distinct keys of a map). -/
def goKeyLe (a b : ConnKey) : Bool := !goKeyLess b a

/-- The second loop of `connections`: the finished `connm` map, or `none`
for a pass that panicked. -/
def connmOf (localIps interfaces : List String) (pt : Table) : Option Connm :=
  pt.foldlM (procStep localIps interfaces (buildEpm pt) pt) []

/-- The body of `connections`; `none` models a pass that panicked. -/
def connectionsCore (localIps interfaces : List String) (pt : Table) :
    Option (List Connection) :=
  match connmOf localIps interfaces pt with
  | none => none
  | some connm =>
    some ((sortByLe goKeyLe (connm.map Prod.fst)).map
      (fun k => (getA connm k).getD default))

/-- Go `connections`: the deferred `recover` turns a panic into the zero
value of the (unnamed) result, the empty list. -/
def connections (localIps interfaces : List String) (pt : Table) :
    List Connection :=
  (connectionsCore localIps interfaces pt).getD []

/-! ### Graph assembly: the edge map of Nodegraph

The plugin's `Nodegraph` walks every connection of every process of the
(filtered) table and accumulates a node map `nm` and an edge map `em`; only
the edge map is relevant to the properties below, so the model tracks `em`
together with the panics the `nm`-row construction can raise (nil table
entry dereferences, and the `conn.Self.Name[0:2]` slice of a short name).
Go keys `em` by the string `fmt.Sprintf("%d -> %d", a, b)`, which renders
ordered pid pairs injectively; the map is therefore keyed here by the pair
itself, and the rendered string is kept as the `id` field of the value. -/

/-- Endpoint of a process-package connection (fields used by Nodegraph). -/
structure NEndpoint where
  name : String
  pid : Pid
  deriving DecidableEq, Repr, Inhabited

/-- Process-package connection record consumed by Nodegraph. -/
structure NConn where
  type : String
  self : NEndpoint
  peer : NEndpoint
  deriving DecidableEq, Repr, Inhabited

/-- Process-table entry fields used by Nodegraph. -/
structure NProcess where
  ppid : Pid
  executable : String
  idName : String
  conns : List NConn
  deriving DecidableEq, Repr, Inhabited

/-- Process table of the plugin package. -/
abbrev NTable := List (Pid × NProcess)

/-- Go `longname`: full executable name and pid. -/
def longname (tb : NTable) (pid : Pid) : String :=
  match getA tb pid with
  | some p =>
    (if p.executable = "" then p.idName else p.executable) ++
      "[" ++ toString pid ++ "]"
  | none => ""

/-- Go `shortname`: process name and pid. -/
def shortname (tb : NTable) (pid : Pid) : String :=
  match getA tb pid with
  | some p => p.idName ++ "[" ++ toString pid ++ "]"
  | none => ""

/-- Whether `strconv.Atoi` succeeds (an optional sign and decimal digits). -/
def atoiOk (s : String) : Bool :=
  match s.data with
  | [] => false
  | c :: rest =>
    let ds := if c = '+' ∨ c = '-' then rest else c :: rest
    !ds.isEmpty && ds.all Char.isDigit

/-- Uppercase hex digit. -/
def upHex (n : Nat) : Char :=
  if n < 10 then Char.ofNat (48 + n) else Char.ofNat (55 + n)

/-- Escape of one byte in Go `url.QueryEscape`. -/
def escByte (b : Nat) : List Char :=
  if (65 ≤ b ∧ b ≤ 90) ∨ (97 ≤ b ∧ b ≤ 122) ∨ (48 ≤ b ∧ b ≤ 57) ∨
      b = 45 ∨ b = 95 ∨ b = 46 ∨ b = 126 then [Char.ofNat b]
  else if b = 32 then ['+']
  else ['%', upHex (b / 16), upHex (b % 16)]

/-- Go `url.QueryEscape` (byte-wise on the UTF-8 encoding). -/
def queryEscape (s : String) : String :=
  ⟨(s.toUTF8.toList.map (fun b => escByte b.toNat)).flatten⟩

/-- One row of the Nodegraph edge map (the per-edge fields after the
timestamp; index 6 of the Go row is `label`, the accumulated relation). -/
structure Edge where
  id : String
  source : Pid
  target : Pid
  f4 : String
  f5 : String
  label : String
  deriving DecidableEq, Repr, Inhabited

/-- The Nodegraph edge map, keyed by the (source pid, target pid) pair that
Go renders into the `"%d -> %d"` id string. -/
abbrev Em := List ((Pid × Pid) × Edge)

/-- Go's `"%d -> %d"` edge id. -/
def edgeId (a b : Pid) : String := toString a ++ " -> " ++ toString b

/-- The non-breaking " ‑> " separator used in edge labels. -/
def nbArrow : String := " ‑> "

/-- Processing of one connection by the Nodegraph loop, restricted to its
effect on the edge map; `none` models a panic inside the loop body (a nil
`tb` entry used by the node-map rows, or slicing a too-short self name when
classifying a listen socket). `qpid` is the pid the query focuses on. -/
def edgeStep (qpid : Pid) (tb : NTable) (em : Em) (conn : NConn) :
    Option Em :=
  if conn.self.pid = 0 ∨ conn.peer.pid = 0 ∨
      conn.self.pid = 1 ∨ conn.peer.pid = 1 ∨
      conn.self.pid = conn.peer.pid ∨
      (qpid = 0 ∧ maxInt32 ≤ conn.peer.pid) then some em
  else
    match getA tb conn.self.pid with
    | none => none
    | some _ =>
      if conn.peer.pid < 0 then
        if !atoiOk conn.self.name ∧ conn.self.name.length < 2 then none
        else
          some (setA em (conn.peer.pid, conn.self.pid)
            { id := edgeId conn.peer.pid conn.self.pid,
              source := conn.peer.pid, target := conn.self.pid,
              f4 := (goSplitHostPort conn.peer.name).1,
              f5 := shortname tb conn.self.pid,
              label := conn.type ++ ":" ++ conn.peer.name ++ nbArrow ++
                conn.self.name })
      else if maxInt32 ≤ conn.peer.pid then
        if (getA em (conn.self.pid, conn.peer.pid)).isSome then some em
        else
          some (setA em (conn.self.pid, conn.peer.pid)
            { id := edgeId conn.self.pid conn.peer.pid,
              source := conn.self.pid, target := conn.peer.pid,
              f4 := shortname tb conn.self.pid,
              f5 := queryEscape (conn.type ++ ":" ++ conn.peer.name),
              label := conn.type ++ ":" ++ conn.self.name ++ nbArrow ++
                conn.peer.name })
      else
        match getA tb conn.peer.pid with
        | none => none
        | some _ =>
          match getA em (conn.self.pid, conn.peer.pid) with
          | some e =>
            some (setA em (conn.self.pid, conn.peer.pid)
              { e with label := e.label ++ "\n" ++ conn.type ++ ":" ++
                  conn.self.name ++ nbArrow ++ conn.peer.name })
          | none =>
            match getA em (conn.peer.pid, conn.self.pid) with
            | some e =>
              some (setA em (conn.peer.pid, conn.self.pid)
                { e with label := e.label ++ "\n" ++ conn.type ++ ":" ++
                    conn.peer.name ++ nbArrow ++ conn.self.name })
            | none =>
              some (setA em (conn.self.pid, conn.peer.pid)
                { id := edgeId conn.self.pid conn.peer.pid,
                  source := conn.self.pid, target := conn.peer.pid,
                  f4 := shortname tb conn.self.pid,
                  f5 := shortname tb conn.peer.pid,
                  label := shortname tb conn.self.pid ++ nbArrow ++
                    shortname tb conn.peer.pid ++ "\n" ++ conn.type ++ ":" ++
                    conn.self.name ++ nbArrow ++ conn.peer.name })

/-- The full edge-map construction of Nodegraph over the filtered table
`pt` (node lookups go to the unfiltered table `tb`). -/
def nodegraphEm (qpid : Pid) (tb : NTable) (pt : NTable) : Option Em :=
  pt.foldlM (fun em e => e.2.conns.foldlM (edgeStep qpid tb) em) []

/-- Go `backend.DataResponse` as Nodegraph's recover boundary sees it:
a frames payload and an optional error. -/
structure DataResponse (α : Type) where
  frames : Option α
  error : Option String
  deriving DecidableEq, Repr

/-- The deferred recover of Nodegraph: a panic during the pass is caught and
stored into `resp.Error` (as `"nodegraph panic: %v"` for a non-error panic
value), while a completed body returns its frames with no error. -/
def nodegraphRecover {α : Type} (body : Except String α) : DataResponse α :=
  match body with
  | .ok a => { frames := some a, error := none }
  | .error r => { frames := none, error := some ("nodegraph panic: " ++ r) }

/-! ### Helper predicates used by the theorem statements -/

/-- Number of connections between processes `p` and `q`, in either
direction. -/
def countBetween (p q : Pid) (l : List Connection) : Nat :=
  (l.filter (fun c =>
    (c.self.pid = p ∧ c.peer.pid = q) ∨ (c.self.pid = q ∧ c.peer.pid = p))).length

/-- Whether every process's parent pid has a table entry (the condition
under which the pass does not panic). -/
def allPpidsPresent (pt : Table) : Bool :=
  pt.all (fun e => (getA pt e.2.ppid).isSome)

/-- Well-formed table: pairwise distinct pids. -/
def nodupPids (pt : Table) : Prop := (pt.map Prod.fst).Nodup

/-- Modelled from the spec (claim C2's wording of the reciprocal condition):
"the candidate's transport type equals this descriptor's type, the
candidate's peer string equals this descriptor's local (self) string, and
either the candidate's self string equals this descriptor's peer string, or
the candidate's self string is empty and the transport is shared-memory or
unix-domain". `conn` is this descriptor, `rconn` the candidate. -/
def specAccepts (conn rconn : GoConn) : Bool :=
  rconn.type = conn.type && rconn.peer = conn.self &&
    (rconn.self = conn.peer ||
      (rconn.self = "" && (conn.type = "PSXSHM" || conn.type = "unix")))

/-! ### Derived descriptions used by the theorems -/

/-- Membership of a descriptor occurrence in the endpoint map: index `i` is
recorded for process `rpid` under `key`. -/
def EpmHas (epm : Epm) (key : String) (rpid : Pid) (i : Nat) : Prop :=
  i ∈ (getA ((getA epm key).getD []) rpid).getD []

/-- Description of the `connm` entries that processing one descriptor
`conn` of process `pid` can record: a data-resource entry, a kernel entry,
an external-host entry, or a reciprocal-match entry (each with the guards
the code checks before recording it). -/
def descNew (localIps interfaces : List String) (epm : Epm) (pt : Table)
    (pid : Pid) (p : GoProcess) (conn : GoConn)
    (x : ConnKey × Connection) : Prop :=
  ((conn.type = "REG" ∨ conn.type = "PSXSHM") ∧
    x = (⟨pid, conn.descriptor, maxInt32, 0⟩,
      ⟨conn.type, conn.name, ⟨pid, conn.descriptor, p.exec, conn.self⟩,
        ⟨maxInt32, 0, "", conn.name⟩⟩)) ∨
  (conn.type = "systm" ∧
    x = (⟨pid, conn.descriptor, 0, 0⟩,
      ⟨conn.type, conn.name, ⟨pid, conn.descriptor, p.exec, conn.self⟩,
        ⟨0, 0, conn.peer, conn.name⟩⟩)) ∨
  (isTransport conn.type = true ∧ conn.peer ≠ "" ∧
    (getA epm (conn.type ++ ": " ++ conn.peer)).isNone ∧
    (conn.type = "TCP" ∨ conn.type = "UDP") ∧
    hostIsLocal localIps interfaces conn.peer = false ∧
    x = (⟨-1, -1, pid, conn.descriptor⟩,
      ⟨conn.type, conn.name,
        ⟨-1, -1, (goSplitHostPort conn.peer).2, conn.peer⟩,
        ⟨pid, conn.descriptor, p.exec, conn.self⟩⟩)) ∨
  (isTransport conn.type = true ∧ conn.peer ≠ "" ∧
    ∃ rpid rp rconn i,
      rpid ≠ pid ∧ getA pt rpid = some rp ∧
      EpmHas epm (conn.type ++ ": " ++ conn.peer) rpid i ∧
      rp.conns.get? i = some rconn ∧ reciprocal conn rconn = true ∧
      x = (⟨pid, conn.descriptor, rpid, rconn.descriptor⟩,
        ⟨conn.type, conn.name, ⟨pid, conn.descriptor, p.exec, conn.self⟩,
          ⟨rpid, rconn.descriptor, rp.exec, conn.peer⟩⟩))

/-- Description of any `connm` entry of a finished pass: a synthetic parent
entry of some table entry, or an entry recorded for some descriptor. -/
def connmProv (localIps interfaces : List String) (pt : Table)
    (x : ConnKey × Connection) : Prop :=
  (∃ e ∈ pt, ∃ pp, getA pt e.2.ppid = some pp ∧
    x = (⟨e.2.ppid, -1, e.1, -1⟩, parentVal e pp)) ∨
  ∃ e ∈ pt, ∃ conn ∈ e.2.conns,
    descNew localIps interfaces (buildEpm pt) pt e.1 e.2 conn x

/-- Existence of an accepted candidate: process `rpid` owns, at an index
recorded under `key` in the endpoint map, a descriptor record that
reciprocally matches `conn` and carries descriptor number `rfd`. -/
def acceptedCand (epm : Epm) (pt : Table) (key : String) (conn : GoConn)
    (rpid : Pid) (rfd : Int) : Prop :=
  ∃ rp i rconn, getA pt rpid = some rp ∧ EpmHas epm key rpid i ∧
    rp.conns.get? i = some rconn ∧ rconn.descriptor = rfd ∧
    reciprocal conn rconn = true

/-- The sort key of an emitted connection (its endpoint pids and fds). -/
def connKeyOf (c : Connection) : ConnKey :=
  ⟨c.self.pid, c.self.fd, c.peer.pid, c.peer.fd⟩

/-- Well-formed process table: pairwise distinct pids, and non-negative
pids, parent pids and descriptor numbers. -/
def wfTable (pt : Table) : Prop :=
  (pt.map Prod.fst).Nodup ∧
    ∀ e ∈ pt, 0 ≤ e.1 ∧ 0 ≤ e.2.ppid ∧ ∀ c ∈ e.2.conns, 0 ≤ c.descriptor

/-- Classification of the keys the Nodegraph edge map can hold when every
connection's self pid is a process pid in `[0, maxInt32)`: an external edge
(negative source), a data edge (peer at or above `maxInt32`), or a pair of
process pids. -/
def emClassOK (p q : Int) : Prop :=
  (p < 0 ∧ 0 ≤ q ∧ q < maxInt32) ∨
  (0 ≤ p ∧ p < maxInt32 ∧ maxInt32 ≤ q) ∨
  (0 ≤ p ∧ p < maxInt32 ∧ 0 ≤ q ∧ q < maxInt32)

/-- Invariant of the Nodegraph edge map: every key is classified, and no
unordered pair of distinct pids carries an edge in both directions. -/
def emInv (em : Em) : Prop :=
  (∀ k : Pid × Pid, (getA em k).isSome = true → emClassOK k.1 k.2) ∧
  ∀ p q : Pid, p ≠ q → ¬((getA em (p, q)).isSome = true ∧
    (getA em (q, p)).isSome = true)

/-! ## Infrastructure lemmas -/

section AssocLemmas

variable {K V : Type} [DecidableEq K]

theorem getA_setA_self (m : List (K × V)) (k : K) (v : V) :
    getA (setA m k v) k = some v := by
  induction m with
  | nil => simp [setA, getA]
  | cons e rest ih =>
    obtain ⟨k1, v1⟩ := e
    by_cases h : k1 = k <;> simp [setA, getA, h, ih]

theorem getA_setA_ne (m : List (K × V)) (k k2 : K) (v : V) (h : k2 ≠ k) :
    getA (setA m k v) k2 = getA m k2 := by
  have hk : ¬k = k2 := fun hh => h hh.symm
  induction m with
  | nil => simp [setA, getA, hk]
  | cons e rest ih =>
    obtain ⟨k1, v1⟩ := e
    by_cases h1 : k1 = k
    · subst h1
      simp [setA, getA, hk]
    · simp [setA, getA, h1, ih]

theorem mem_setA {m : List (K × V)} {k : K} {v : V} {e : K × V}
    (h : e ∈ setA m k v) : e = (k, v) ∨ e ∈ m := by
  induction m with
  | nil => simpa [setA] using h
  | cons e1 rest ih =>
    obtain ⟨k1, v1⟩ := e1
    by_cases h1 : k1 = k
    · simp only [setA, if_pos h1, List.mem_cons] at h
      rcases h with h | h
      · exact Or.inl h
      · exact Or.inr (List.mem_cons_of_mem _ h)
    · simp only [setA, if_neg h1, List.mem_cons] at h
      rcases h with h | h
      · exact Or.inr (by simp [h])
      · rcases ih h with h2 | h2
        · exact Or.inl h2
        · exact Or.inr (List.mem_cons_of_mem _ h2)

theorem mem_keys_setA {m : List (K × V)} {k k2 : K} {v : V}
    (h : k2 ∈ (setA m k v).map Prod.fst) :
    k2 = k ∨ k2 ∈ m.map Prod.fst := by
  simp only [List.mem_map] at h ⊢
  obtain ⟨e, he, hk⟩ := h
  rcases mem_setA he with h1 | h1
  · left; rw [← hk, h1]
  · right; exact ⟨e, h1, hk⟩

theorem keys_setA_sub {m : List (K × V)} {k : K} {v : V} {k2 : K}
    (h : k2 ∈ m.map Prod.fst) : k2 ∈ (setA m k v).map Prod.fst := by
  induction m with
  | nil => simp at h
  | cons e rest ih =>
    obtain ⟨k1, v1⟩ := e
    by_cases h1 : k1 = k
    · subst h1
      simp only [List.map_cons, List.mem_cons] at h
      rcases h with h | h
      · simp [setA, h]
      · simp [setA, h]
    · simp only [List.map_cons, List.mem_cons] at h
      rcases h with h | h
      · simp [setA, h1, h]
      · simp only [setA, if_neg h1, List.map_cons, List.mem_cons]
        exact Or.inr (ih h)

theorem getA_isSome_setA (m : List (K × V)) (k k2 : K) (v : V)
    (h : (getA m k2).isSome) : (getA (setA m k v) k2).isSome := by
  by_cases hk : k2 = k
  · subst hk; simp [getA_setA_self]
  · rwa [getA_setA_ne _ _ _ _ hk]

theorem getA_mem {m : List (K × V)} {k : K} {v : V} (h : getA m k = some v) :
    (k, v) ∈ m := by
  induction m with
  | nil => simp [getA] at h
  | cons e rest ih =>
    obtain ⟨k1, v1⟩ := e
    by_cases h1 : k1 = k
    · subst h1
      have hv : v1 = v := by simpa [getA] using h
      simp [hv]
    · simp only [getA, if_neg h1] at h
      exact List.mem_cons_of_mem _ (ih h)

theorem getA_isSome_of_mem {m : List (K × V)} {k : K} {v : V}
    (h : (k, v) ∈ m) : (getA m k).isSome := by
  induction m with
  | nil => simp at h
  | cons e rest ih =>
    obtain ⟨k1, v1⟩ := e
    rcases List.mem_cons.mp h with h1 | h1
    · have hk : k1 = k := congrArg Prod.fst h1.symm
      simp [getA, hk]
    · by_cases h2 : k1 = k
      · simp [getA, h2]
      · simpa [getA, h2] using ih h1

theorem getA_isSome_iff_mem_keys {m : List (K × V)} {k : K} :
    (getA m k).isSome ↔ k ∈ m.map Prod.fst := by
  constructor
  · intro h
    obtain ⟨v, hv⟩ := Option.isSome_iff_exists.mp h
    exact List.mem_map.mpr ⟨(k, v), getA_mem hv, rfl⟩
  · intro h
    obtain ⟨⟨k1, v⟩, hm, hk⟩ := List.mem_map.mp h
    cases hk
    exact getA_isSome_of_mem hm

theorem nodupKeys_setA {m : List (K × V)} {k : K} {v : V}
    (h : (m.map Prod.fst).Nodup) : ((setA m k v).map Prod.fst).Nodup := by
  induction m with
  | nil => simp [setA]
  | cons e rest ih =>
    obtain ⟨k1, v1⟩ := e
    simp only [List.map_cons, List.nodup_cons] at h
    by_cases h1 : k1 = k
    · subst h1
      simpa [setA] using h
    · simp only [setA, if_neg h1, List.map_cons, List.nodup_cons]
      refine ⟨fun hc => ?_, ih h.2⟩
      rcases mem_keys_setA hc with h2 | h2
      · exact h1 h2
      · exact h.1 h2

theorem getA_of_mem_nodup {m : List (K × V)} {k : K} {v : V}
    (hn : (m.map Prod.fst).Nodup) (h : (k, v) ∈ m) : getA m k = some v := by
  induction m with
  | nil => simp at h
  | cons e rest ih =>
    obtain ⟨k1, v1⟩ := e
    simp only [List.map_cons, List.nodup_cons] at hn
    rcases List.mem_cons.mp h with h1 | h1
    · obtain ⟨h1, h2⟩ := Prod.mk.injEq .. ▸ h1
      simp [getA, h1.symm, h2.symm]
    · have hne : k1 ≠ k := by
        intro hk
        subst hk
        exact hn.1 (List.mem_map.mpr ⟨(k1, v), h1, rfl⟩)
      simpa [getA, hne] using ih hn.2 h1

end AssocLemmas

section SortLemmas

variable {α : Type}

theorem perm_insertLe (le : α → α → Bool) (a : α) (l : List α) :
    List.Perm (insertLe le a l) (a :: l) := by
  induction l with
  | nil => simp [insertLe]
  | cons b rest ih =>
    by_cases h : le a b
    · simp [insertLe, h]
    · simp only [insertLe, if_neg h]
      exact ((ih.cons b).trans (List.Perm.swap a b rest))

theorem perm_sortByLe (le : α → α → Bool) (l : List α) :
    List.Perm (sortByLe le l) l := by
  induction l with
  | nil => simp [sortByLe]
  | cons a rest ih =>
    simp only [sortByLe, List.foldr_cons]
    exact (perm_insertLe le a _).trans (ih.cons a)

theorem mem_sortByLe (le : α → α → Bool) (l : List α) (a : α) :
    a ∈ sortByLe le l ↔ a ∈ l :=
  (perm_sortByLe le l).mem_iff

theorem pairwise_insertLe (le : α → α → Bool)
    (htot : ∀ x y, le x y = false → le y x = true)
    (htrans : ∀ x y z, le x y = true → le y z = true → le x z = true)
    (a : α) (l : List α)
    (h : l.Pairwise (fun x y => le x y = true)) :
    (insertLe le a l).Pairwise (fun x y => le x y = true) := by
  induction l with
  | nil => simp [insertLe]
  | cons b rest ih =>
    rcases List.pairwise_cons.mp h with ⟨hb, hrest⟩
    by_cases hab : le a b
    · simp only [insertLe, if_pos hab]
      refine List.pairwise_cons.mpr ⟨?_, h⟩
      intro x hx
      rcases List.mem_cons.mp hx with hx | hx
      · subst hx; exact hab
      · exact htrans a b x hab (hb x hx)
    · simp only [insertLe, if_neg hab]
      refine List.pairwise_cons.mpr ⟨?_, ih hrest⟩
      intro x hx
      have hx2 := (perm_insertLe le a rest).mem_iff.mp hx
      rcases List.mem_cons.mp hx2 with hx3 | hx3
      · rw [hx3]
        exact htot a b (by simpa using hab)
      · exact hb x hx3

theorem pairwise_sortByLe (le : α → α → Bool)
    (htot : ∀ x y, le x y = false → le y x = true)
    (htrans : ∀ x y z, le x y = true → le y z = true → le x z = true)
    (l : List α) :
    (sortByLe le l).Pairwise (fun x y => le x y = true) := by
  induction l with
  | nil => simp [sortByLe]
  | cons a rest ih =>
    simp only [sortByLe, List.foldr_cons]
    exact pairwise_insertLe le htot htrans a _ ih

end SortLemmas

section FoldLemmas

variable {α β : Type}

theorem foldlM_option_eq_cons (f : β → α → Option β) (a : α) (l : List α)
    (init : β) :
    (a :: l).foldlM f init = (f init a).bind (fun s => l.foldlM f s) := by
  rfl

theorem foldlM_option_inv {P : β → Prop} {f : β → α → Option β}
    {l : List α} {init res : β}
    (h : l.foldlM f init = some res)
    (hinit : P init)
    (hstep : ∀ s a s2, a ∈ l → f s a = some s2 → P s → P s2) :
    P res := by
  induction l generalizing init with
  | nil => simp_all [List.foldlM_nil]
  | cons a rest ih =>
    rw [foldlM_option_eq_cons] at h
    cases hfa : f init a with
    | none => rw [hfa] at h; simp at h
    | some s1 =>
      rw [hfa] at h
      simp only [Option.some_bind] at h
      exact ih h (hstep init a s1 (List.mem_cons_self a rest) hfa hinit)
        (fun s b s2 hb => hstep s b s2 (List.mem_cons_of_mem a hb))

theorem foldlM_option_split {f : β → α → Option β} {l1 l2 : List α}
    {init res : β} (h : (l1 ++ l2).foldlM f init = some res) :
    ∃ mid, l1.foldlM f init = some mid ∧ l2.foldlM f mid = some res := by
  induction l1 generalizing init with
  | nil => exact ⟨init, rfl, by simpa using h⟩
  | cons a rest ih =>
    rw [List.cons_append, foldlM_option_eq_cons] at h
    cases hfa : f init a with
    | none => rw [hfa] at h; simp at h
    | some s1 =>
      rw [hfa] at h
      simp only [Option.some_bind] at h
      obtain ⟨mid, h1, h2⟩ := ih h
      exact ⟨mid, by rw [foldlM_option_eq_cons, hfa]; simpa using h1, h2⟩

end FoldLemmas

/-! ## Lemmas about the correlation pass -/

section PassLemmas

variable {localIps interfaces : List String} {epm : Epm} {pt : Table}

/-- Exhaustive case analysis of one candidate-descriptor examination: it
either leaves the map unchanged, or records the reciprocal-match entry
after both duplicate checks fail. -/
theorem candEmit_cases {pid : Pid} {fd : Int} {conn : GoConn}
    {p : GoProcess} {rpid : Pid} {connm out : Connm} {i : Nat}
    (h : candEmit pt pid fd conn p rpid connm i = some out) :
    ∃ rp rconn, getA pt rpid = some rp ∧ rp.conns.get? i = some rconn ∧
      (out = connm ∨
        (reciprocal conn rconn = true ∧
         (getA connm ⟨pid, fd, rpid, rconn.descriptor⟩).isSome = false ∧
         (getA connm ⟨rpid, rconn.descriptor, pid, fd⟩).isSome = false ∧
         out = setA connm ⟨pid, fd, rpid, rconn.descriptor⟩
           ⟨conn.type, conn.name, ⟨pid, fd, p.exec, conn.self⟩,
            ⟨rpid, rconn.descriptor, rp.exec, conn.peer⟩⟩)) := by
  unfold candEmit at h
  split at h
  · exact absurd h (by simp)
  next rp hrp =>
    split at h
    · exact absurd h (by simp)
    next rconn hrc =>
      refine ⟨rp, rconn, hrp, hrc, ?_⟩
      split at h
      · exact Or.inl (Option.some.inj h).symm
      next hrec =>
        split at h
        next hd1 => exact Or.inl (Option.some.inj h).symm
        next hd1 =>
          split at h
          next hd2 => exact Or.inl (Option.some.inj h).symm
          next hd2 =>
            refine Or.inr ⟨?_, by simpa using hd1, by simpa using hd2,
              (Option.some.inj h).symm⟩
            simpa using hrec

theorem candEmit_closed {P : Connm → Prop}
    (hP : ∀ m k v, P m → P (setA m k v))
    {pid : Pid} {fd : Int} {conn : GoConn} {p : GoProcess} {rpid : Pid}
    {connm out : Connm} {i : Nat}
    (h : candEmit pt pid fd conn p rpid connm i = some out)
    (hc : P connm) : P out := by
  obtain ⟨rp, rconn, _, _, hcase⟩ := candEmit_cases h
  rcases hcase with rfl | ⟨_, _, _, rfl⟩
  · exact hc
  · exact hP _ _ _ hc

theorem candidateStep_closed {P : Connm → Prop}
    (hP : ∀ m k v, P m → P (setA m k v))
    {pid : Pid} {fd : Int} {conn : GoConn} {p : GoProcess}
    {key : String} {rpid : Pid} {connm out : Connm}
    (h : candidateStep pt pid fd conn p key epm rpid connm = some out)
    (hc : P connm) : P out := by
  unfold candidateStep at h
  by_cases hr : rpid = pid
  · rw [if_pos hr] at h
    cases h
    exact hc
  · rw [if_neg hr] at h
    exact foldlM_option_inv h hc (fun s a s2 _ hs hps => candEmit_closed hP hs hps)

theorem descStep_closed {P : Connm → Prop}
    (hP : ∀ m k v, P m → P (setA m k v))
    {pid : Pid} {p : GoProcess} {connm out : Connm} {conn : GoConn}
    (h : descStep localIps interfaces epm pt pid p connm conn = some out)
    (hc : P connm) : P out := by
  unfold descStep at h
  split at h
  · cases h; exact hc
  · split at h
    · cases h; exact hP _ _ _ hc
    · split at h
      · cases h; exact hP _ _ _ hc
      · split at h
        · split at h
          · cases h; exact hc
          · split at h
            · split at h
              · split at h
                · cases h; exact hP _ _ _ hc
                · cases h; exact hc
              · cases h; exact hc
            · exact foldlM_option_inv h hc
                (fun s a s2 _ hs hps => candidateStep_closed hP hs hps)
        · cases h; exact hc

theorem procStep_closed {P : Connm → Prop}
    (hP : ∀ m k v, P m → P (setA m k v))
    {connm out : Connm} {e : Pid × GoProcess}
    (h : procStep localIps interfaces epm pt connm e = some out)
    (hc : P connm) : P out := by
  unfold procStep at h
  cases hpp : getA pt e.2.ppid with
  | none => rw [hpp] at h; exact absurd h (by simp)
  | some pp =>
    rw [hpp] at h
    exact foldlM_option_inv h (hP _ _ _ hc)
      (fun s a s2 _ hs hps => descStep_closed hP hs hps)

theorem connmOf_closed {P : Connm → Prop}
    (hP : ∀ m k v, P m → P (setA m k v))
    {m : Connm}
    (h : connmOf localIps interfaces pt = some m)
    (hinit : P []) : P m := by
  unfold connmOf at h
  exact foldlM_option_inv h hinit
    (fun s a s2 _ hs hps => procStep_closed hP hs hps)

theorem connmOf_nodup {m : Connm}
    (h : connmOf localIps interfaces pt = some m) :
    (m.map Prod.fst).Nodup :=
  connmOf_closed (P := fun cm => (cm.map Prod.fst).Nodup)
    (fun _ _ _ hm => nodupKeys_setA hm) h (by simp)

theorem descStep_mono {pid : Pid} {p : GoProcess} {connm out : Connm}
    {conn : GoConn} (K : ConnKey)
    (h : descStep localIps interfaces epm pt pid p connm conn = some out)
    (hK : (getA connm K).isSome = true) : (getA out K).isSome = true :=
  descStep_closed (P := fun cm => (getA cm K).isSome = true)
    (fun m k v hm => getA_isSome_setA m k K v hm) h hK

theorem procStep_mono {connm out : Connm} {e : Pid × GoProcess} (K : ConnKey)
    (h : procStep localIps interfaces epm pt connm e = some out)
    (hK : (getA connm K).isSome = true) : (getA out K).isSome = true :=
  procStep_closed (P := fun cm => (getA cm K).isSome = true)
    (fun m k v hm => getA_isSome_setA m k K v hm) h hK

theorem tableFold_mono {l : List (Pid × GoProcess)} {connm out : Connm}
    (K : ConnKey)
    (h : l.foldlM (procStep localIps interfaces epm pt) connm = some out)
    (hK : (getA connm K).isSome = true) : (getA out K).isSome = true :=
  foldlM_option_inv (P := fun cm => (getA cm K).isSome = true) h hK
    (fun s a s2 _ hs hps => procStep_mono K hs hps)

theorem descFold_mono {l : List GoConn} {pid : Pid} {p : GoProcess}
    {connm out : Connm} (K : ConnKey)
    (h : l.foldlM (descStep localIps interfaces epm pt pid p) connm = some out)
    (hK : (getA connm K).isSome = true) : (getA out K).isSome = true :=
  foldlM_option_inv (P := fun cm => (getA cm K).isSome = true) h hK
    (fun s a s2 _ hs hps => descStep_mono K hs hps)

theorem candidateStep_sub {pid : Pid} {fd : Int} {conn : GoConn}
    {p : GoProcess} {key : String} {rpid : Pid} {connm out : Connm}
    (h : candidateStep pt pid fd conn p key epm rpid connm = some out) :
    ∀ x ∈ out, x ∈ connm ∨
      ∃ rp rconn i, rpid ≠ pid ∧ getA pt rpid = some rp ∧
        EpmHas epm key rpid i ∧ rp.conns.get? i = some rconn ∧
        reciprocal conn rconn = true ∧
        x = (⟨pid, fd, rpid, rconn.descriptor⟩,
          ⟨conn.type, conn.name, ⟨pid, fd, p.exec, conn.self⟩,
            ⟨rpid, rconn.descriptor, rp.exec, conn.peer⟩⟩) := by
  unfold candidateStep at h
  by_cases hr : rpid = pid
  · rw [if_pos hr] at h
    cases h
    exact fun x hx => Or.inl hx
  · rw [if_neg hr] at h
    refine foldlM_option_inv
      (P := fun cm => ∀ x ∈ cm, x ∈ connm ∨
        ∃ rp rconn i, rpid ≠ pid ∧ getA pt rpid = some rp ∧
          EpmHas epm key rpid i ∧ rp.conns.get? i = some rconn ∧
          reciprocal conn rconn = true ∧
          x = (⟨pid, fd, rpid, rconn.descriptor⟩,
            ⟨conn.type, conn.name, ⟨pid, fd, p.exec, conn.self⟩,
              ⟨rpid, rconn.descriptor, rp.exec, conn.peer⟩⟩))
      h (fun x hx => Or.inl hx) ?_
    intro s a s2 ha hs hps x hx
    obtain ⟨rp, rconn, hrp, hrc, hcase⟩ := candEmit_cases hs
    rcases hcase with rfl | ⟨hrec, _, _, rfl⟩
    · exact hps x hx
    · rcases mem_setA hx with hx1 | hx1
      · exact Or.inr ⟨rp, rconn, a, hr, hrp, ha, hrc, hrec, hx1⟩
      · exact hps x hx1

theorem descStep_sub {pid : Pid} {p : GoProcess} {connm out : Connm}
    {conn : GoConn}
    (h : descStep localIps interfaces epm pt pid p connm conn = some out) :
    ∀ x ∈ out, x ∈ connm ∨ descNew localIps interfaces epm pt pid p conn x := by
  unfold descStep at h
  split at h
  · cases h; exact fun x hx => Or.inl hx
  next h1 =>
    split at h
    next h2 =>
      cases h
      intro x hx
      rcases mem_setA hx with hx1 | hx1
      · exact Or.inr (Or.inl ⟨by simpa using h2, hx1⟩)
      · exact Or.inl hx1
    next h2 =>
      split at h
      next h3 =>
        cases h
        intro x hx
        rcases mem_setA hx with hx1 | hx1
        · exact Or.inr (Or.inr (Or.inl ⟨h3, hx1⟩))
        · exact Or.inl hx1
      next h3 =>
        split at h
        next h4 =>
          split at h
          next h5 =>
            cases h; exact fun x hx => Or.inl hx
          next h5 =>
            split at h
            next h6 =>
              split at h
              next h7 =>
                split at h
                next h8 =>
                  cases h
                  intro x hx
                  rcases mem_setA hx with hx1 | hx1
                  · exact Or.inr (Or.inr (Or.inr (Or.inl
                      ⟨h4, h5, h6, by simpa using h7, by simpa using h8, hx1⟩)))
                  · exact Or.inl hx1
                next h8 =>
                  cases h; exact fun x hx => Or.inl hx
              next h7 => cases h; exact fun x hx => Or.inl hx
            next h6 =>
              refine foldlM_option_inv
                (P := fun cm => ∀ x ∈ cm, x ∈ connm ∨
                  descNew localIps interfaces epm pt pid p conn x)
                h (fun x hx => Or.inl hx) ?_
              intro s a s2 _ hs hps x hx
              rcases candidateStep_sub hs x hx with hx1 |
                ⟨rp, rconn, i, hne, hrp, hepm, hrc, hrec, hxeq⟩
              · exact hps x hx1
              · exact Or.inr (Or.inr (Or.inr (Or.inr
                  ⟨h4, h5, a, rp, rconn, i, hne, hrp, hepm, hrc, hrec, hxeq⟩)))
        · cases h; exact fun x hx => Or.inl hx

theorem procStep_sub {connm out : Connm} {e : Pid × GoProcess}
    (h : procStep localIps interfaces epm pt connm e = some out) :
    ∀ x ∈ out, x ∈ connm ∨
      (∃ pp, getA pt e.2.ppid = some pp ∧
        x = (⟨e.2.ppid, -1, e.1, -1⟩, parentVal e pp)) ∨
      ∃ conn ∈ e.2.conns,
        descNew localIps interfaces epm pt e.1 e.2 conn x := by
  unfold procStep at h
  split at h
  · exact absurd h (by simp)
  next pp hpp =>
    refine foldlM_option_inv
      (P := fun cm => ∀ x ∈ cm, x ∈ connm ∨
        (∃ pp, getA pt e.2.ppid = some pp ∧
          x = (⟨e.2.ppid, -1, e.1, -1⟩, parentVal e pp)) ∨
        ∃ conn ∈ e.2.conns,
          descNew localIps interfaces epm pt e.1 e.2 conn x)
      h ?_ ?_
    · intro x hx
      rcases mem_setA hx with hx1 | hx1
      · exact Or.inr (Or.inl ⟨pp, hpp, hx1⟩)
      · exact Or.inl hx1
    · intro s a s2 ha hs hps x hx
      rcases descStep_sub hs x hx with hx1 | hx1
      · exact hps x hx1
      · exact Or.inr (Or.inr ⟨a, ha, hx1⟩)

theorem connmOf_sub {m : Connm}
    (h : connmOf localIps interfaces pt = some m) :
    ∀ x ∈ m, connmProv localIps interfaces pt x := by
  unfold connmOf at h
  refine foldlM_option_inv
    (P := fun cm => ∀ x ∈ cm, connmProv localIps interfaces pt x)
    h (by simp) ?_
  intro s a s2 ha hs hps x hx
  rcases procStep_sub hs x hx with hx1 | hx1 | hx1
  · exact hps x hx1
  · exact Or.inl ⟨a, ha, hx1⟩
  · exact Or.inr ⟨a, ha, hx1⟩

/-- Every entry of the map mirrors its key in the endpoint pid/fd fields. -/
theorem connmProv_mirror {x : ConnKey × Connection}
    (h : connmProv localIps interfaces pt x) : connKeyOf x.2 = x.1 := by
  rcases h with ⟨e, _, pp, _, hx⟩ | ⟨e, _, conn, _, hd⟩
  · rw [hx]; rfl
  · rcases hd with ⟨_, hx⟩ | ⟨_, hx⟩ | ⟨_, _, _, _, _, hx⟩ |
      ⟨_, _, rpid, rp, rconn, i, _, _, _, _, _, hx⟩ <;> (rw [hx]; rfl)

/-- The output of a completed pass, in terms of its finished map. -/
theorem connections_eq {m : Connm}
    (h : connmOf localIps interfaces pt = some m) :
    connections localIps interfaces pt =
      (sortByLe goKeyLe (m.map Prod.fst)).map
        (fun k => (getA m k).getD default) := by
  simp [connections, connectionsCore, h]

theorem mem_connections {m : Connm} {c : Connection}
    (h : connmOf localIps interfaces pt = some m) :
    c ∈ connections localIps interfaces pt ↔ ∃ k, (k, c) ∈ m := by
  rw [connections_eq h]
  constructor
  · intro hc
    obtain ⟨k, hk, hck⟩ := List.mem_map.mp hc
    rw [mem_sortByLe] at hk
    have hk2 := getA_isSome_iff_mem_keys.mpr hk
    obtain ⟨v, hv⟩ := Option.isSome_iff_exists.mp hk2
    rw [hv] at hck
    simp only [Option.getD_some] at hck
    exact ⟨k, hck ▸ getA_mem hv⟩
  · intro ⟨k, hk⟩
    have hnd := connmOf_nodup h
    have hv := getA_of_mem_nodup hnd hk
    refine List.mem_map.mpr ⟨k, ?_, by simp [hv]⟩
    rw [mem_sortByLe]
    exact List.mem_map.mpr ⟨(k, c), hk, rfl⟩

/-- A predicate count over the output equals the count over map entries. -/
theorem countP_connections {m : Connm} (P : Connection → Bool)
    (h : connmOf localIps interfaces pt = some m) :
    (connections localIps interfaces pt).countP P =
      m.countP (fun kc => P kc.2) := by
  rw [connections_eq h]
  rw [List.countP_map]
  rw [(perm_sortByLe goKeyLe (m.map Prod.fst)).countP_eq]
  have hnd := connmOf_nodup h
  clear h
  induction m with
  | nil => simp
  | cons kc rest ih =>
    obtain ⟨k, v⟩ := kc
    simp only [List.map_cons, List.nodup_cons] at hnd
    simp only [List.map_cons, List.countP_cons]
    rw [List.countP_congr (fun k2 hk2 => ?_), ih hnd.2]
    · simp [Function.comp, getA, getA_setA_self]
    · have hne : k ≠ k2 := fun he => hnd.1 (he ▸ hk2)
      simp only [Function.comp]
      have : getA ((k, v) :: rest) k2 = getA rest k2 := by
        simp [getA, fun h => hne h]
      rw [this]

end PassLemmas

/-! ## Characterization of the endpoint map -/

section EpmLemmas

theorem epmHas_epmAdd (epm : Epm) (key : String) (pid : Pid) (i : Nat)
    (key2 : String) (rpid : Pid) (j : Nat) :
    EpmHas (epmAdd epm key pid i) key2 rpid j ↔
      EpmHas epm key2 rpid j ∨ (key2 = key ∧ rpid = pid ∧ j = i) := by
  unfold EpmHas epmAdd
  by_cases hk : key2 = key
  · subst hk
    rw [getA_setA_self]
    simp only [Option.getD_some]
    by_cases hr : rpid = pid
    · subst hr
      rw [getA_setA_self]
      simp
    · rw [getA_setA_ne _ _ _ _ hr]
      simp [hr]
  · rw [getA_setA_ne _ _ _ _ hk]
    simp [hk]

theorem epmHas_connsFold (l : List (Nat × GoConn)) (pid : Pid) (epm0 : Epm)
    (key : String) (rpid : Pid) (j : Nat) :
    EpmHas (l.foldl (fun epm ic =>
        if ic.2.self = "" then epm
        else if isTransport ic.2.type then
          epmAdd epm (ic.2.type ++ ": " ++ ic.2.self) pid ic.1
        else epm) epm0) key rpid j ↔
      EpmHas epm0 key rpid j ∨
        ∃ ic ∈ l, ic.2.self ≠ "" ∧ isTransport ic.2.type = true ∧
          key = ic.2.type ++ ": " ++ ic.2.self ∧ rpid = pid ∧ j = ic.1 := by
  induction l generalizing epm0 with
  | nil => simp
  | cons ic rest ih =>
    simp only [List.foldl_cons]
    rw [ih, List.exists_mem_cons_iff]
    by_cases h1 : ic.2.self = ""
    · have hC : (ic.2.self ≠ "" ∧ isTransport ic.2.type = true ∧
          key = ic.2.type ++ ": " ++ ic.2.self ∧ rpid = pid ∧ j = ic.1) ↔
          False := iff_false_intro (fun hcon => hcon.1 h1)
      rw [if_pos h1, hC, false_or]
    · rw [if_neg h1]
      by_cases h2 : isTransport ic.2.type
      · have hK : (key = ic.2.type ++ ": " ++ ic.2.self ∧ rpid = pid ∧
            j = ic.1) ↔
            (ic.2.self ≠ "" ∧ isTransport ic.2.type = true ∧
              key = ic.2.type ++ ": " ++ ic.2.self ∧ rpid = pid ∧
              j = ic.1) := by
          constructor
          · intro ⟨a, b, c⟩
            exact ⟨h1, h2, a, b, c⟩
          · intro ⟨_, _, a, b, c⟩
            exact ⟨a, b, c⟩
        rw [if_pos h2, epmHas_epmAdd, or_assoc]
        exact or_congr_right (or_congr_left hK)
      · have hC : (ic.2.self ≠ "" ∧ isTransport ic.2.type = true ∧
            key = ic.2.type ++ ": " ++ ic.2.self ∧ rpid = pid ∧ j = ic.1) ↔
            False :=
          iff_false_intro (fun hcon => h2 (by simpa using hcon.2.1))
        rw [if_neg h2, hC, false_or]

theorem epmHas_buildEpm (pt : Table) (key : String) (rpid : Pid) (j : Nat) :
    EpmHas (buildEpm pt) key rpid j ↔
      ∃ e ∈ pt, ∃ ic ∈ e.2.conns.enum, ic.2.self ≠ "" ∧
        isTransport ic.2.type = true ∧ key = ic.2.type ++ ": " ++ ic.2.self ∧
        rpid = e.1 ∧ j = ic.1 := by
  have H : ∀ epm0 : Epm,
      EpmHas (pt.foldl (fun epm e => e.2.conns.enum.foldl
          (fun epm ic =>
            if ic.2.self = "" then epm
            else if isTransport ic.2.type then
              epmAdd epm (ic.2.type ++ ": " ++ ic.2.self) e.1 ic.1
            else epm) epm) epm0) key rpid j ↔
        EpmHas epm0 key rpid j ∨
          ∃ e ∈ pt, ∃ ic ∈ e.2.conns.enum, ic.2.self ≠ "" ∧
            isTransport ic.2.type = true ∧
            key = ic.2.type ++ ": " ++ ic.2.self ∧ rpid = e.1 ∧ j = ic.1 := by
    induction pt with
    | nil => simp
    | cons e rest ih =>
      intro epm0
      simp only [List.foldl_cons]
      rw [ih, epmHas_connsFold, List.exists_mem_cons_iff, or_assoc]
  unfold buildEpm
  rw [H []]
  simp [EpmHas, getA]

/-- Membership of a descriptor occurrence in the built endpoint map, stated
against the table: present exactly for transport descriptors with a
non-empty self string, under the key formed from their type and self. -/
theorem epmHas_buildEpm_get {pt : Table} (hn : (pt.map Prod.fst).Nodup)
    (key : String) (rpid : Pid) (j : Nat) :
    EpmHas (buildEpm pt) key rpid j ↔
      ∃ p conn, getA pt rpid = some p ∧ p.conns.get? j = some conn ∧
        conn.self ≠ "" ∧ isTransport conn.type = true ∧
        key = conn.type ++ ": " ++ conn.self := by
  rw [epmHas_buildEpm]
  constructor
  · intro ⟨e, he, ic, hic, h1, h2, h3, h4, h5⟩
    refine ⟨e.2, ic.2, ?_, ?_, h1, h2, h3⟩
    · rw [h4]
      exact getA_of_mem_nodup hn (by rcases e with ⟨a, b⟩; exact he)
    · rw [h5]
      exact List.mem_enum_iff_get?.mp hic
  · intro ⟨p, conn, hp, hconn, h1, h2, h3⟩
    refine ⟨(rpid, p), getA_mem hp, (j, conn), ?_, h1, h2, h3, rfl, rfl⟩
    exact List.mem_enum_iff_get?.mpr hconn

/-- A recorded occurrence forces the endpoint-map lookup itself to hit. -/
theorem epmHas_isSome {epm : Epm} {key : String} {rpid : Pid} {j : Nat}
    (h : EpmHas epm key rpid j) : (getA epm key).isSome := by
  unfold EpmHas at h
  cases hk : getA epm key with
  | none => rw [hk] at h; simp [getA] at h
  | some _ => simp

/-- A recorded occurrence puts the owning pid among the inner keys. -/
theorem epmHas_mem_inner {epm : Epm} {key : String} {rpid : Pid} {j : Nat}
    (h : EpmHas epm key rpid j) :
    rpid ∈ ((getA epm key).getD []).map Prod.fst := by
  unfold EpmHas at h
  cases hr : getA ((getA epm key).getD []) rpid with
  | none => rw [hr] at h; simp at h
  | some ixs =>
    exact getA_isSome_iff_mem_keys.mp (by simp [hr])

end EpmLemmas

/-! ## Exact key-set characterization of candidate processing -/

section KeyLemmas

variable {localIps interfaces : List String} {epm : Epm} {pt : Table}

/-- Finer case analysis of one candidate examination, recording which of
the three checks stopped it. -/
theorem candEmit_cases2 {pid : Pid} {fd : Int} {conn : GoConn}
    {p : GoProcess} {rpid : Pid} {connm out : Connm} {i : Nat}
    (h : candEmit pt pid fd conn p rpid connm i = some out) :
    ∃ rp rconn, getA pt rpid = some rp ∧ rp.conns.get? i = some rconn ∧
      ((reciprocal conn rconn = false ∧ out = connm) ∨
       (reciprocal conn rconn = true ∧
        (getA connm ⟨pid, fd, rpid, rconn.descriptor⟩).isSome = true ∧
        out = connm) ∨
       (reciprocal conn rconn = true ∧
        (getA connm ⟨pid, fd, rpid, rconn.descriptor⟩).isSome = false ∧
        (getA connm ⟨rpid, rconn.descriptor, pid, fd⟩).isSome = true ∧
        out = connm) ∨
       (reciprocal conn rconn = true ∧
        (getA connm ⟨pid, fd, rpid, rconn.descriptor⟩).isSome = false ∧
        (getA connm ⟨rpid, rconn.descriptor, pid, fd⟩).isSome = false ∧
        out = setA connm ⟨pid, fd, rpid, rconn.descriptor⟩
          ⟨conn.type, conn.name, ⟨pid, fd, p.exec, conn.self⟩,
           ⟨rpid, rconn.descriptor, rp.exec, conn.peer⟩⟩)) := by
  unfold candEmit at h
  split at h
  · exact absurd h (by simp)
  next rp hrp =>
    split at h
    · exact absurd h (by simp)
    next rconn hrc =>
      refine ⟨rp, rconn, hrp, hrc, ?_⟩
      split at h
      next hrec =>
        exact Or.inl ⟨by simpa using hrec, (Option.some.inj h).symm⟩
      next hrec =>
        have hrec2 : reciprocal conn rconn = true := by simpa using hrec
        split at h
        next hd1 =>
          exact Or.inr (Or.inl ⟨hrec2, hd1, (Option.some.inj h).symm⟩)
        next hd1 =>
          split at h
          next hd2 =>
            exact Or.inr (Or.inr (Or.inl ⟨hrec2, by simpa using hd1, hd2,
              (Option.some.inj h).symm⟩))
          next hd2 =>
            exact Or.inr (Or.inr (Or.inr ⟨hrec2, by simpa using hd1,
              by simpa using hd2, (Option.some.inj h).symm⟩))

/-- Presence of keys after examining all recorded indices of one candidate
process: the self-to-candidate key for descriptor `rfd` ends present exactly
when it was present, or some recorded index holds an accepted match with
that descriptor and the reversed key was not already present; reversed keys
are untouched. -/
theorem candEmitFold_keys {pid : Pid} {fd : Int} {conn : GoConn}
    {p : GoProcess} {rpid : Pid} (hr : rpid ≠ pid) (connm0 : Connm) :
    ∀ (ix : List Nat) (cm out : Connm),
      ix.foldlM (candEmit pt pid fd conn p rpid) cm = some out →
      (∀ rfd : Int, (getA cm ⟨rpid, rfd, pid, fd⟩).isSome =
        (getA connm0 ⟨rpid, rfd, pid, fd⟩).isSome) →
      (∀ rfd : Int, (getA out ⟨rpid, rfd, pid, fd⟩).isSome =
        (getA connm0 ⟨rpid, rfd, pid, fd⟩).isSome) ∧
      ∀ rfd : Int,
        ((getA out ⟨pid, fd, rpid, rfd⟩).isSome = true ↔
          (getA cm ⟨pid, fd, rpid, rfd⟩).isSome = true ∨
            ((getA connm0 ⟨rpid, rfd, pid, fd⟩).isSome = false ∧
             ∃ i ∈ ix, ∃ rp rconn, getA pt rpid = some rp ∧
               rp.conns.get? i = some rconn ∧ rconn.descriptor = rfd ∧
               reciprocal conn rconn = true)) := by
  intro ix
  induction ix with
  | nil =>
    intro cm out h hstab
    cases h
    exact ⟨hstab, fun rfd => by simp⟩
  | cons i rest ih =>
    intro cm out h hstab
    rw [foldlM_option_eq_cons] at h
    cases hstep : candEmit pt pid fd conn p rpid cm i with
    | none => rw [hstep] at h; exact absurd h (by simp)
    | some cm1 =>
      rw [hstep] at h
      simp only [Option.some_bind] at h
      obtain ⟨rp, rconn, hrp, hrc, hcase⟩ := candEmit_cases2 hstep
      have hKne : ∀ rfd : Int,
          (⟨rpid, rfd, pid, fd⟩ : ConnKey) ≠
            ⟨pid, fd, rpid, rconn.descriptor⟩ := by
        intro rfd hcon
        exact hr (congrArg ConnKey.k0 hcon)
      rcases hcase with ⟨hrec, rfl⟩ | ⟨hrec, hd1, rfl⟩ |
        ⟨hrec, hd1, hd2, rfl⟩ | ⟨hrec, hd1, hd2, rfl⟩
      · -- not reciprocal: state unchanged, head never accepted
        obtain ⟨hstab2, hiff⟩ := ih cm1 out h hstab
        refine ⟨hstab2, fun rfd => ?_⟩
        rw [hiff rfd]
        constructor
        · intro hc
          rcases hc with hc | ⟨hk, i2, hi2, hacc⟩
          · exact Or.inl hc
          · exact Or.inr ⟨hk, i2, List.mem_cons_of_mem _ hi2, hacc⟩
        · intro hc
          rcases hc with hc | ⟨hk, i2, hi2, rp2, rconn2, hrp2, hrc2, hd, hrec2⟩
          · exact Or.inl hc
          · rcases List.mem_cons.mp hi2 with rfl | hi2
            · rw [hrp] at hrp2
              cases hrp2
              rw [hrc] at hrc2
              cases hrc2
              rw [hrec2] at hrec
              exact absurd hrec (by simp)
            · exact Or.inr ⟨hk, i2, hi2, rp2, rconn2, hrp2, hrc2, hd, hrec2⟩
      · -- reciprocal but the same-oriented key already present
        obtain ⟨hstab2, hiff⟩ := ih cm1 out h hstab
        refine ⟨hstab2, fun rfd => ?_⟩
        rw [hiff rfd]
        constructor
        · intro hc
          rcases hc with hc | ⟨hk, i2, hi2, hacc⟩
          · exact Or.inl hc
          · exact Or.inr ⟨hk, i2, List.mem_cons_of_mem _ hi2, hacc⟩
        · intro hc
          rcases hc with hc | ⟨hk, i2, hi2, rp2, rconn2, hrp2, hrc2, hd, hrec2⟩
          · exact Or.inl hc
          · rcases List.mem_cons.mp hi2 with rfl | hi2
            · rw [hrp] at hrp2
              cases hrp2
              rw [hrc] at hrc2
              cases hrc2
              subst hd
              exact Or.inl hd1
            · exact Or.inr ⟨hk, i2, hi2, rp2, rconn2, hrp2, hrc2, hd, hrec2⟩
      · -- reciprocal but the reversed key already present
        obtain ⟨hstab2, hiff⟩ := ih cm1 out h hstab
        refine ⟨hstab2, fun rfd => ?_⟩
        rw [hiff rfd]
        constructor
        · intro hc
          rcases hc with hc | ⟨hk, i2, hi2, hacc⟩
          · exact Or.inl hc
          · exact Or.inr ⟨hk, i2, List.mem_cons_of_mem _ hi2, hacc⟩
        · intro hc
          rcases hc with hc | ⟨hk, i2, hi2, rp2, rconn2, hrp2, hrc2, hd, hrec2⟩
          · exact Or.inl hc
          · rcases List.mem_cons.mp hi2 with rfl | hi2
            · rw [hrp] at hrp2
              cases hrp2
              rw [hrc] at hrc2
              cases hrc2
              subst hd
              rw [hstab rconn.descriptor] at hd2
              rw [hk] at hd2
              exact absurd hd2 (by simp)
            · exact Or.inr ⟨hk, i2, hi2, rp2, rconn2, hrp2, hrc2, hd, hrec2⟩
      · -- the entry is recorded
        have hstab1 : ∀ rfd : Int,
            (getA (setA cm ⟨pid, fd, rpid, rconn.descriptor⟩
              ⟨conn.type, conn.name, ⟨pid, fd, p.exec, conn.self⟩,
               ⟨rpid, rconn.descriptor, rp.exec, conn.peer⟩⟩)
              ⟨rpid, rfd, pid, fd⟩).isSome =
            (getA connm0 ⟨rpid, rfd, pid, fd⟩).isSome := by
          intro rfd
          rw [getA_setA_ne _ _ _ _ (hKne rfd)]
          exact hstab rfd
        obtain ⟨hstab2, hiff⟩ := ih _ out h hstab1
        refine ⟨hstab2, fun rfd => ?_⟩
        rw [hiff rfd]
        by_cases hfd : rconn.descriptor = rfd
        · subst hfd
          constructor
          · intro _
            refine Or.inr ⟨?_, i, List.mem_cons_self i rest,
              rp, rconn, hrp, hrc, rfl, hrec⟩
            rw [← hstab rconn.descriptor]
            exact hd2
          · intro _
            rw [getA_setA_self]
            simp
        · have hKne2 : (⟨pid, fd, rpid, rfd⟩ : ConnKey) ≠
              ⟨pid, fd, rpid, rconn.descriptor⟩ := by
            intro hcon
            exact hfd (congrArg ConnKey.k3 hcon).symm
          rw [getA_setA_ne _ _ _ _ hKne2]
          constructor
          · intro hc
            rcases hc with hc | ⟨hk, i2, hi2, hacc⟩
            · exact Or.inl hc
            · exact Or.inr ⟨hk, i2, List.mem_cons_of_mem _ hi2, hacc⟩
          · intro hc
            rcases hc with hc | ⟨hk, i2, hi2, rp2, rconn2, hrp2, hrc2, hd, hrec2⟩
            · exact Or.inl hc
            · rcases List.mem_cons.mp hi2 with rfl | hi2
              · rw [hrp] at hrp2
                cases hrp2
                rw [hrc] at hrc2
                cases hrc2
                exact absurd hd hfd
              · exact Or.inr ⟨hk, i2, hi2, rp2, rconn2, hrp2, hrc2, hd, hrec2⟩

/-- Presence of keys whose (self pid, self fd, peer pid) prefix does not
match what one candidate process can record is unchanged. -/
theorem candidateStep_other {pid : Pid} {fd : Int} {conn : GoConn}
    {p : GoProcess} {key : String} {rpid : Pid} {connm out : Connm}
    (h : candidateStep pt pid fd conn p key epm rpid connm = some out)
    (K : ConnKey) (hK : ¬(K.k0 = pid ∧ K.k1 = fd ∧ K.k2 = rpid)) :
    (getA out K).isSome = (getA connm K).isSome := by
  cases hc : (getA connm K).isSome
  · cases ho : (getA out K).isSome
    · rfl
    · obtain ⟨v, hv⟩ := Option.isSome_iff_exists.mp ho
      rcases candidateStep_sub h (K, v) (getA_mem hv) with hm |
        ⟨rp, rconn, i, _, _, _, _, _, hx⟩
      · rw [getA_isSome_of_mem hm] at hc
        exact hc
      · have hK2 : K = ⟨pid, fd, rpid, rconn.descriptor⟩ := congrArg Prod.fst hx
        exact absurd ⟨by rw [hK2], by rw [hK2], by rw [hK2]⟩ hK
  · rw [candidateStep_closed (P := fun cm => (getA cm K).isSome = true)
      (fun m k v hm => getA_isSome_setA m k K v hm) h hc]

/-- Presence of self-to-candidate keys after one candidate process is
processed, relative to the map it started from. -/
theorem candidateStep_keys {pid : Pid} {fd : Int} {conn : GoConn}
    {p : GoProcess} {key : String} {rpid : Pid} {connm out : Connm}
    (hr : rpid ≠ pid)
    (h : candidateStep pt pid fd conn p key epm rpid connm = some out)
    (rfd : Int) :
    ((getA out ⟨rpid, rfd, pid, fd⟩).isSome =
      (getA connm ⟨rpid, rfd, pid, fd⟩).isSome) ∧
    ((getA out ⟨pid, fd, rpid, rfd⟩).isSome = true ↔
      (getA connm ⟨pid, fd, rpid, rfd⟩).isSome = true ∨
        ((getA connm ⟨rpid, rfd, pid, fd⟩).isSome = false ∧
         acceptedCand epm pt key conn rpid rfd)) := by
  unfold candidateStep at h
  rw [if_neg hr] at h
  obtain ⟨hstab, hiff⟩ :=
    candEmitFold_keys hr connm _ connm out h (fun _ => rfl)
  refine ⟨hstab rfd, ?_⟩
  rw [hiff rfd]
  constructor
  · intro hc
    rcases hc with hc | ⟨hk, i, hi, rp, rconn, hrp, hrc, hd, hrec⟩
    · exact Or.inl hc
    · exact Or.inr ⟨hk, rp, i, rconn, hrp, hi, hrc, hd, hrec⟩
  · intro hc
    rcases hc with hc | ⟨hk, rp, i, rconn, hrp, hi, hrc, hd, hrec⟩
    · exact Or.inl hc
    · exact Or.inr ⟨hk, i, hi, rp, rconn, hrp, hrc, hd, hrec⟩

/-- Presence of self-to-candidate keys after the whole candidate loop. -/
theorem candFold_keys {pid : Pid} {fd : Int} {conn : GoConn}
    {p : GoProcess} {key : String} :
    ∀ (rpids : List Pid) (connm out : Connm),
      rpids.foldlM
        (fun cm r => candidateStep pt pid fd conn p key epm r cm) connm =
          some out →
      ∀ (rpid : Pid) (rfd : Int),
        ((getA out ⟨pid, fd, rpid, rfd⟩).isSome = true ↔
          (getA connm ⟨pid, fd, rpid, rfd⟩).isSome = true ∨
            (rpid ∈ rpids ∧ rpid ≠ pid ∧
             (getA connm ⟨rpid, rfd, pid, fd⟩).isSome = false ∧
             acceptedCand epm pt key conn rpid rfd)) ∧
        ((getA out ⟨rpid, rfd, pid, fd⟩).isSome =
          (getA connm ⟨rpid, rfd, pid, fd⟩).isSome) := by
  intro rpids
  induction rpids with
  | nil =>
    intro connm out h rpid rfd
    cases h
    exact ⟨by simp, rfl⟩
  | cons r rest ih =>
    intro connm out h rpid rfd
    rw [foldlM_option_eq_cons] at h
    cases hstep : candidateStep pt pid fd conn p key epm r connm with
    | none => rw [hstep] at h; exact absurd h (by simp)
    | some mid =>
      rw [hstep] at h
      simp only [Option.some_bind] at h
      obtain ⟨ih1, ih2⟩ := ih mid out h rpid rfd
      by_cases hrp2 : r = pid
      · -- self candidate: skipped entirely
        have hmid : mid = connm := by
          unfold candidateStep at hstep
          rw [if_pos hrp2] at hstep
          exact (Option.some.inj hstep).symm
        subst hmid
        refine ⟨?_, ih2⟩
        rw [ih1]
        constructor
        · intro hc
          rcases hc with hc | ⟨hmem, hne, hk, hacc⟩
          · exact Or.inl hc
          · exact Or.inr ⟨List.mem_cons_of_mem _ hmem, hne, hk, hacc⟩
        · intro hc
          rcases hc with hc | ⟨hmem, hne, hk, hacc⟩
          · exact Or.inl hc
          · rcases List.mem_cons.mp hmem with rfl | hmem
            · exact absurd hrp2 hne
            · exact Or.inr ⟨hmem, hne, hk, hacc⟩
      · by_cases hrr : rpid = r
        · -- the candidate of interest
          subst hrr
          obtain ⟨hstab, hiff⟩ := candidateStep_keys hrp2 hstep rfd
          rw [hstab] at ih2
          refine ⟨?_, ih2⟩
          rw [ih1, hiff, hstab]
          constructor
          · intro hc
            rcases hc with (hc | ⟨hk, hacc⟩) | ⟨_, hne, hk, hacc⟩
            · exact Or.inl hc
            · exact Or.inr ⟨List.mem_cons_self _ _, hrp2, hk, hacc⟩
            · exact Or.inr ⟨List.mem_cons_self _ _, hne, hk, hacc⟩
          · intro hc
            rcases hc with hc | ⟨_, hne, hk, hacc⟩
            · exact Or.inl (Or.inl hc)
            · exact Or.inl (Or.inr ⟨hk, hacc⟩)
        · -- an unrelated candidate: presence carried through
          have hother : (getA mid ⟨pid, fd, rpid, rfd⟩).isSome =
              (getA connm ⟨pid, fd, rpid, rfd⟩).isSome :=
            candidateStep_other hstep _ (fun hcon => hrr (by simpa using hcon.2.2))
          have hother2 : (getA mid ⟨rpid, rfd, pid, fd⟩).isSome =
              (getA connm ⟨rpid, rfd, pid, fd⟩).isSome := by
            exact candidateStep_other hstep _
              (fun hcon => hrp2 (by simpa using hcon.2.2.symm))
          rw [hother2] at ih2
          refine ⟨?_, ih2⟩
          rw [ih1, hother, hother2]
          constructor
          · intro hc
            rcases hc with hc | ⟨hmem, hne, hk, hacc⟩
            · exact Or.inl hc
            · exact Or.inr ⟨List.mem_cons_of_mem _ hmem, hne, hk, hacc⟩
          · intro hc
            rcases hc with hc | ⟨hmem, hne, hk, hacc⟩
            · exact Or.inl hc
            · rcases List.mem_cons.mp hmem with rfl | hmem
              · exact absurd rfl hrr
              · exact Or.inr ⟨hmem, hne, hk, hacc⟩

/-- A transport type is none of the specially-handled types. -/
theorem isTransport_excl {t : String} (h : isTransport t = true) :
    ¬t = "NUL" ∧ (t = "REG" || t = "PSXSHM") = false ∧ ¬t = "systm" := by
  simp only [isTransport, Bool.or_eq_true, decide_eq_true_eq] at h
  rcases h with (((h | h) | h) | h) | h <;> subst h <;> simp

/-- Key-presence characterization of processing one transport descriptor
whose peer endpoint is found in the endpoint map: a self-to-candidate key
ends present exactly when it already was, or its candidate process is not
the owner, holds an accepted reciprocal match with that descriptor number,
and the reversed orientation had not been recorded. -/
theorem descStep_hit_keys {pid : Pid} {p : GoProcess} {connm out : Connm}
    {conn : GoConn}
    (ht : isTransport conn.type = true) (hpe : ¬conn.peer = "")
    (hhit : (getA epm (conn.type ++ ": " ++ conn.peer)).isSome = true)
    (h : descStep localIps interfaces epm pt pid p connm conn = some out)
    (rpid : Pid) (rfd : Int) :
    (getA out ⟨pid, conn.descriptor, rpid, rfd⟩).isSome = true ↔
      (getA connm ⟨pid, conn.descriptor, rpid, rfd⟩).isSome = true ∨
        (rpid ≠ pid ∧
         (getA connm ⟨rpid, rfd, pid, conn.descriptor⟩).isSome = false ∧
         acceptedCand epm pt (conn.type ++ ": " ++ conn.peer) conn rpid rfd) := by
  obtain ⟨he1, he2, he3⟩ := isTransport_excl ht
  obtain ⟨inner, hv⟩ := Option.isSome_iff_exists.mp hhit
  unfold descStep at h
  rw [if_neg he1, he2, if_neg he3, if_pos ht, if_neg hpe, hv] at h
  simp only [Bool.false_eq_true, if_false, Option.isNone_some,
    Option.getD_some] at h
  obtain ⟨hiff, _⟩ := candFold_keys _ connm out h rpid rfd
  rw [hiff]
  constructor
  · intro hc
    rcases hc with hc | ⟨_, hne, hk, hacc⟩
    · exact Or.inl hc
    · exact Or.inr ⟨hne, hk, hacc⟩
  · intro hc
    rcases hc with hc | ⟨hne, hk, hacc⟩
    · exact Or.inl hc
    · refine Or.inr ⟨?_, hne, hk, hacc⟩
      rw [mem_sortByLe]
      obtain ⟨rp, i, rconn, _, hhas, _, _, _⟩ := hacc
      simpa using epmHas_mem_inner hhas

end KeyLemmas

/-! ## Helper lemmas for the claim theorems -/

section ClaimHelpers

variable {localIps interfaces : List String} {epm : Epm} {pt : Table}

theorem foldlM_cons_some {α β : Type} {f : β → α → Option β} {a : α}
    {l : List α} {init res : β}
    (h : (a :: l).foldlM f init = some res) :
    ∃ mid, f init a = some mid ∧ l.foldlM f mid = some res := by
  rw [foldlM_option_eq_cons] at h
  cases hfa : f init a with
  | none => rw [hfa] at h; exact absurd h (by simp)
  | some mid =>
    rw [hfa] at h
    simp only [Option.some_bind] at h
    exact ⟨mid, rfl, h⟩

theorem foldlM_singleton {α β : Type} {f : β → α → Option β} {a : α}
    {init res : β}
    (h : [a].foldlM f init = some res) : f init a = some res := by
  obtain ⟨mid, h1, h2⟩ := foldlM_cons_some h
  cases h2
  exact h1

/-- A transport descriptor with an empty peer string is skipped whole. -/
theorem descStep_listener {pid : Pid} {p : GoProcess} {cm : Connm}
    {conn : GoConn} (ht : isTransport conn.type = true)
    (hpe : conn.peer = "") :
    descStep localIps interfaces epm pt pid p cm conn = some cm := by
  obtain ⟨he1, he2, he3⟩ := isTransport_excl ht
  unfold descStep
  rw [if_neg he1, he2, if_neg he3, if_pos ht, if_pos hpe]
  simp

/-- Evaluation of the external-host branch. -/
theorem descStep_external {pid : Pid} {p : GoProcess} {cm : Connm}
    {conn : GoConn} (ht : conn.type = "TCP" ∨ conn.type = "UDP")
    (hpe : ¬conn.peer = "")
    (hmiss : getA epm (conn.type ++ ": " ++ conn.peer) = none)
    (hloc : hostIsLocal localIps interfaces conn.peer = false) :
    descStep localIps interfaces epm pt pid p cm conn =
      some (setA cm ⟨-1, -1, pid, conn.descriptor⟩
        { ftype := conn.type, name := conn.name,
          self := ⟨-1, -1, (goSplitHostPort conn.peer).2, conn.peer⟩,
          peer := ⟨pid, conn.descriptor, p.exec, conn.self⟩ }) := by
  have htr : isTransport conn.type = true := by
    rcases ht with h | h <;> simp [isTransport, h]
  obtain ⟨he1, he2, he3⟩ := isTransport_excl htr
  have htu : (decide (conn.type = "TCP") || decide (conn.type = "UDP")) =
      true := by
    rcases ht with h | h <;> simp [h]
  unfold descStep
  rw [if_neg he1, he2, if_neg he3, if_pos htr, if_neg hpe, hmiss]
  simp only [Bool.false_eq_true, if_false, Option.isNone_none, htu,
    if_true, hloc, Bool.not_false]

/-- Evaluation of the non-matching local branch of a tcp/udp descriptor. -/
theorem descStep_local {pid : Pid} {p : GoProcess} {cm : Connm}
    {conn : GoConn} (ht : conn.type = "TCP" ∨ conn.type = "UDP")
    (hpe : ¬conn.peer = "")
    (hmiss : getA epm (conn.type ++ ": " ++ conn.peer) = none)
    (hloc : hostIsLocal localIps interfaces conn.peer = true) :
    descStep localIps interfaces epm pt pid p cm conn = some cm := by
  have htr : isTransport conn.type = true := by
    rcases ht with h | h <;> simp [isTransport, h]
  obtain ⟨he1, he2, he3⟩ := isTransport_excl htr
  have htu : (decide (conn.type = "TCP") || decide (conn.type = "UDP")) =
      true := by
    rcases ht with h | h <;> simp [h]
  unfold descStep
  rw [if_neg he1, he2, if_neg he3, if_pos htr, if_neg hpe, hmiss]
  simp only [Bool.false_eq_true, if_false, Option.isNone_none, htu,
    if_true, hloc, Bool.not_true]

/-- Evaluation of one process step when the parent entry exists. -/
theorem procStep_eval {cm : Connm} {e : Pid × GoProcess} {pp : GoProcess}
    (hpp : getA pt e.2.ppid = some pp) :
    procStep localIps interfaces epm pt cm e =
      e.2.conns.foldlM (descStep localIps interfaces epm pt e.1 e.2)
        (setA cm ⟨e.2.ppid, -1, e.1, -1⟩ (parentVal e pp)) := by
  unfold procStep
  rw [hpp]

theorem countP_eq_one_unique {m : Connm}
    (hn : (m.map Prod.fst).Nodup) (K : ConnKey) (P : Connection → Bool)
    (hex : ∃ v, (K, v) ∈ m ∧ P v = true)
    (hun : ∀ kc ∈ m, P kc.2 = true → kc.1 = K) :
    m.countP (fun kc => P kc.2) = 1 := by
  induction m with
  | nil => simp at hex
  | cons kc rest ih =>
    obtain ⟨k, v⟩ := kc
    simp only [List.map_cons, List.nodup_cons] at hn
    obtain ⟨v0, hv0, hP0⟩ := hex
    rw [List.countP_cons]
    by_cases hPk : P v = true
    · have hkK : k = K := hun (k, v) (List.mem_cons_self _ _) hPk
      subst hkK
      have hzero : rest.countP (fun kc => P kc.2) = 0 := by
        rw [List.countP_eq_zero]
        intro kc2 hkc2
        intro hP2
        have := hun kc2 (List.mem_cons_of_mem _ hkc2) (by simpa using hP2)
        exact hn.1 (this ▸ List.mem_map.mpr ⟨kc2, hkc2, rfl⟩)
      simp [hzero, hPk]
    · have hvrest : (K, v0) ∈ rest := by
        rcases List.mem_cons.mp hv0 with h1 | h1
        · exfalso
          have : v0 = v := (Prod.mk.injEq .. ▸ h1).2
          rw [this] at hP0
          exact hPk hP0
        · exact h1
      rw [ih hn.2 ⟨v0, hvrest, hP0⟩
        (fun kc2 hkc2 => hun kc2 (List.mem_cons_of_mem _ hkc2))]
      simp [hPk]

theorem connKey_ne_k0 {K1 K2 : ConnKey} (h : K1.k0 ≠ K2.k0) : K1 ≠ K2 :=
  fun hc => h (congrArg ConnKey.k0 hc)

theorem connKey_ne_k1 {K1 K2 : ConnKey} (h : K1.k1 ≠ K2.k1) : K1 ≠ K2 :=
  fun hc => h (congrArg ConnKey.k1 hc)

theorem countBetween_comm (p q : Pid) (l : List Connection) :
    countBetween p q l = countBetween q p l := by
  unfold countBetween
  rw [List.filter_congr]
  intro c _
  simp only [decide_eq_decide]
  tauto

/-- Presence and value origin of the synthetic parent key of every table
entry of a completed pass. -/
theorem connmOf_parent_present {m : Connm}
    (hm : connmOf localIps interfaces pt = some m)
    {e : Pid × GoProcess} (he : e ∈ pt) :
    (getA m ⟨e.2.ppid, -1, e.1, -1⟩).isSome = true := by
  obtain ⟨l1, l2, rfl⟩ := List.append_of_mem he
  unfold connmOf at hm
  obtain ⟨mid, h1, h2⟩ := foldlM_option_split hm
  obtain ⟨mid2, h3, h4⟩ := foldlM_cons_some h2
  cases hpp : getA (l1 ++ e :: l2) e.2.ppid with
  | none =>
    unfold procStep at h3
    rw [hpp] at h3
    exact absurd h3 (by simp)
  | some pp =>
    rw [procStep_eval hpp] at h3
    have hstart : (getA (setA mid ⟨e.2.ppid, -1, e.1, -1⟩ (parentVal e pp))
        ⟨e.2.ppid, -1, e.1, -1⟩).isSome = true := by
      rw [getA_setA_self]
      rfl
    exact tableFold_mono _ h4 (descFold_mono _ h3 hstart)

theorem reciprocal_iff (conn rconn : GoConn) :
    reciprocal conn rconn = true ↔
      conn.type = rconn.type ∧ conn.peer = rconn.self ∧
        (rconn.peer = conn.self ∨
          (rconn.peer = "" ∧ (conn.type = "PSXSHM" ∨ conn.type = "unix"))) := by
  simp only [reciprocal, Bool.and_eq_true, Bool.or_eq_true,
    decide_eq_true_eq]
  tauto

theorem getA_pair_left {p1 p2 : Pid} {P1 P2 : GoProcess} :
    getA [(p1, P1), (p2, P2)] p1 = some P1 := by
  simp [getA]

theorem getA_pair_right {p1 p2 : Pid} {P1 P2 : GoProcess} (h : p1 ≠ p2) :
    getA [(p1, P1), (p2, P2)] p2 = some P2 := by
  simp [getA, h]

theorem getA_pair_cases {p1 p2 q : Pid} {P1 P2 rp : GoProcess}
    (h : getA [(p1, P1), (p2, P2)] q = some rp) :
    (q = p1 ∧ rp = P1) ∨ (q = p2 ∧ rp = P2) := by
  by_cases h1 : p1 = q
  · subst h1
    rw [getA_pair_left] at h
    exact Or.inl ⟨rfl, (Option.some.inj h).symm⟩
  · simp only [getA, if_neg h1] at h
    by_cases h2 : p2 = q
    · subst h2
      simp only [if_pos rfl] at h
      exact Or.inr ⟨rfl, (Option.some.inj h).symm⟩
    · simp [if_neg h2] at h

theorem get?_singleton {α : Type} {x y : α} {i : Nat}
    (h : [x].get? i = some y) : y = x ∧ i = 0 := by
  cases i with
  | zero => exact ⟨(Option.some.inj h).symm, rfl⟩
  | succ n => simp [List.get?] at h

/-- Restriction of provenance on a two-process table whose processes each
own a single transport descriptor: every entry linking the two processes
sits at one of the two reciprocal keys. -/
theorem pair_prov {a b : Pid} {exA exB : String} {A B : GoConn}
    {tbl : Table}
    (htbl : tbl = [(a, ⟨a, exA, [A]⟩), (b, ⟨b, exB, [B]⟩)] ∨
            tbl = [(b, ⟨b, exB, [B]⟩), (a, ⟨a, exA, [A]⟩)])
    (hab : a ≠ b) (ha : 0 ≤ a) (hb : 0 ≤ b)
    (htA : isTransport A.type = true) (htB : isTransport B.type = true)
    {x : ConnKey × Connection}
    (hprov : connmProv localIps interfaces tbl x)
    (hP : (x.2.self.pid = a ∧ x.2.peer.pid = b) ∨
          (x.2.self.pid = b ∧ x.2.peer.pid = a)) :
    x.1 = ⟨a, A.descriptor, b, B.descriptor⟩ ∨
    x.1 = ⟨b, B.descriptor, a, A.descriptor⟩ := by
  have hmem : ∀ e : Pid × GoProcess, e ∈ tbl →
      e = (a, ⟨a, exA, [A]⟩) ∨ e = (b, ⟨b, exB, [B]⟩) := by
    intro e he
    rcases htbl with rfl | rfl
    · rcases List.mem_cons.mp he with h1 | h1
      · exact Or.inl h1
      · exact Or.inr (by simpa using h1)
    · rcases List.mem_cons.mp he with h1 | h1
      · exact Or.inr h1
      · exact Or.inl (by simpa using h1)
  have hgetcases : ∀ (q : Pid) (rp : GoProcess), getA tbl q = some rp →
      (q = a ∧ rp = ⟨a, exA, [A]⟩) ∨ (q = b ∧ rp = ⟨b, exB, [B]⟩) := by
    intro q rp hq
    rcases htbl with rfl | rfl
    · exact getA_pair_cases hq
    · exact (getA_pair_cases hq).symm
  obtain ⟨heA1, heA2, heA3⟩ := isTransport_excl htA
  obtain ⟨heB1, heB2, heB3⟩ := isTransport_excl htB
  rcases hprov with ⟨e, he, pp, hpp, hxeq⟩ | ⟨e, he, cn, hcn, hd⟩
  · exfalso
    rcases hmem e he with rfl | rfl <;>
      rcases hP with ⟨h1, h2⟩ | ⟨h1, h2⟩ <;>
        rw [hxeq] at h1 h2 <;> simp [parentVal] at h1 h2 <;>
          ((try simp only [Pid] at *); omega)
  · rcases hmem e he with rfl | rfl
    · simp only [List.mem_singleton] at hcn
      subst hcn
      rcases hd with ⟨hty, _⟩ | ⟨hty, _⟩ |
        ⟨_, _, _, _, _, hxeq⟩ |
        ⟨_, _, rpid, rp, rconn, i, hne, hrp, _, hget, _, hxeq⟩
      · exfalso
        rcases hty with h | h <;> rw [h] at heA2 <;> simp at heA2
      · exact absurd hty heA3
      · exfalso
        rcases hP with ⟨h1, _⟩ | ⟨h1, _⟩ <;>
          rw [hxeq] at h1 <;> simp at h1 <;>
            ((try simp only [Pid] at *); omega)
      · simp at hne
        rcases hgetcases rpid rp hrp with ⟨h1, _⟩ | ⟨rfl, rfl⟩
        · exact absurd h1 hne
        · obtain ⟨rfl, rfl⟩ := get?_singleton hget
          rw [hxeq]
          exact Or.inl rfl
    · simp only [List.mem_singleton] at hcn
      subst hcn
      rcases hd with ⟨hty, _⟩ | ⟨hty, _⟩ |
        ⟨_, _, _, _, _, hxeq⟩ |
        ⟨_, _, rpid, rp, rconn, i, hne, hrp, _, hget, _, hxeq⟩
      · exfalso
        rcases hty with h | h <;> rw [h] at heB2 <;> simp at heB2
      · exact absurd hty heB3
      · exfalso
        rcases hP with ⟨h1, _⟩ | ⟨h1, _⟩ <;>
          rw [hxeq] at h1 <;> simp at h1 <;>
            ((try simp only [Pid] at *); omega)
      · simp at hne
        rcases hgetcases rpid rp hrp with ⟨rfl, rfl⟩ | ⟨h1, _⟩
        · obtain ⟨rfl, rfl⟩ := get?_singleton hget
          rw [hxeq]
          exact Or.inr rfl
        · exact absurd h1 hne

theorem connKey_ne_k2 {K1 K2 : ConnKey} (h : K1.k2 ≠ K2.k2) : K1 ≠ K2 :=
  fun hc => h (congrArg ConnKey.k2 hc)

theorem foldlM_option_total {α β : Type} {f : β → α → Option β} {l : List α}
    (h : ∀ b : β, ∀ a ∈ l, (f b a).isSome = true) (init : β) :
    (l.foldlM f init).isSome = true := by
  induction l generalizing init with
  | nil => simp
  | cons a t ih =>
    rw [foldlM_option_eq_cons]
    obtain ⟨b2, hb2⟩ := Option.isSome_iff_exists.mp
      (h init a (List.mem_cons_self a t))
    rw [hb2]
    simp only [Option.some_bind]
    exact ih (fun b a2 ha2 => h b a2 (List.mem_cons_of_mem a ha2)) b2

/-- A candidate examination cannot panic when the candidate's table entry
exists and the recorded index is in range. -/
theorem candEmit_total {pid : Pid} {fd : Int} {conn : GoConn}
    {p rp : GoProcess} {rpid : Pid} {connm : Connm} {i : Nat}
    (hrp : getA pt rpid = some rp) (hc : (rp.conns.get? i).isSome = true) :
    (candEmit pt pid fd conn p rpid connm i).isSome = true := by
  obtain ⟨rconn, hrc⟩ := Option.isSome_iff_exists.mp hc
  unfold candEmit
  rw [hrp]
  dsimp only
  rw [hrc]
  dsimp only
  split
  · rfl
  · split
    · rfl
    · split <;> rfl

theorem candidateStep_total {pid : Pid} {fd : Int} {conn : GoConn}
    {p : GoProcess} {key : String} {rpid : Pid} {connm : Connm}
    (hv : ∀ i, EpmHas epm key rpid i →
      ∃ rp, getA pt rpid = some rp ∧ (rp.conns.get? i).isSome = true) :
    (candidateStep pt pid fd conn p key epm rpid connm).isSome = true := by
  unfold candidateStep
  split
  · rfl
  · refine foldlM_option_total (fun cm i hi => ?_) connm
    obtain ⟨rp, hrp, hc⟩ := hv i hi
    exact candEmit_total hrp hc

/-- A descriptor step cannot panic when every endpoint-map occurrence points
at an existing table entry and an in-range descriptor index. -/
theorem descStep_total {pid : Pid} {p : GoProcess} {connm : Connm}
    {conn : GoConn}
    (hv : ∀ key rpid i, EpmHas epm key rpid i →
      ∃ rp, getA pt rpid = some rp ∧ (rp.conns.get? i).isSome = true) :
    (descStep localIps interfaces epm pt pid p connm conn).isSome = true := by
  unfold descStep
  split
  · rfl
  · split
    · rfl
    · split
      · rfl
      · split
        · split
          · rfl
          · split
            · split
              · split
                · rfl
                · rfl
              · rfl
            · refine foldlM_option_total (fun cm rpid _ => ?_) connm
              exact candidateStep_total (fun i hi => hv _ rpid i hi)
        · rfl

theorem procStep_total {connm : Connm} {e : Pid × GoProcess}
    (hpp : (getA pt e.2.ppid).isSome = true)
    (hv : ∀ key rpid i, EpmHas epm key rpid i →
      ∃ rp, getA pt rpid = some rp ∧ (rp.conns.get? i).isSome = true) :
    (procStep localIps interfaces epm pt connm e).isSome = true := by
  obtain ⟨pp, hpp2⟩ := Option.isSome_iff_exists.mp hpp
  rw [procStep_eval hpp2]
  exact foldlM_option_total (fun cm c _ => descStep_total hv) _

/-- A pass over a table with distinct pids and every parent pid present
completes without panicking. -/
theorem connmOf_total (hn : (pt.map Prod.fst).Nodup)
    (hpp : allPpidsPresent pt = true) :
    (connmOf localIps interfaces pt).isSome = true := by
  unfold connmOf
  refine foldlM_option_total (fun cm e he => procStep_total ?_ ?_) []
  · rw [allPpidsPresent, List.all_eq_true] at hpp
    exact hpp e he
  · intro key rpid i hhas
    obtain ⟨p, conn, hp, hconn, _, _, _⟩ :=
      (epmHas_buildEpm_get hn key rpid i).mp hhas
    exact ⟨p, hp, by rw [hconn]; rfl⟩

/-- The countBetween statistic is the countP of the linking predicate. -/
theorem countBetween_eq_countP (p q : Pid) (l : List Connection) :
    countBetween p q l = l.countP (fun c =>
      decide ((c.self.pid = p ∧ c.peer.pid = q) ∨
        (c.self.pid = q ∧ c.peer.pid = p))) := by
  rw [countBetween, List.countP_eq_length_filter]

/-- Exactly one connection links two processes each owning one descriptor
of a mutually reciprocal transport pair, for the iteration order that
visits the first process first (the other order follows by swapping the
roles). -/
theorem pair_count_aux {a b : Pid} {exA exB : String} {A B : GoConn}
    (hab : a ≠ b) (ha : 0 ≤ a) (hb : 0 ≤ b)
    (htA : isTransport A.type = true) (htB : isTransport B.type = true)
    (hrAB : reciprocal A B = true) (hrBA : reciprocal B A = true)
    (hpA : A.peer ≠ "") (hpB : B.peer ≠ "") :
    countBetween a b (connections localIps interfaces
      [(a, ⟨a, exA, [A]⟩), (b, ⟨b, exB, [B]⟩)]) = 1 := by
  obtain ⟨htyAB, hpsAB, _⟩ := (reciprocal_iff A B).mp hrAB
  obtain ⟨htyBA, hpsBA, _⟩ := (reciprocal_iff B A).mp hrBA
  have hBs : B.self ≠ "" := by rw [← hpsAB]; exact hpA
  have hAs : A.self ≠ "" := by rw [← hpsBA]; exact hpB
  have hn : ((([(a, ⟨a, exA, [A]⟩), (b, ⟨b, exB, [B]⟩)] : Table)).map
      Prod.fst).Nodup := by simp [hab]
  have hga : getA [(a, (⟨a, exA, [A]⟩ : GoProcess)), (b, ⟨b, exB, [B]⟩)] a =
      some ⟨a, exA, [A]⟩ := getA_pair_left
  have hgb : getA [(a, (⟨a, exA, [A]⟩ : GoProcess)), (b, ⟨b, exB, [B]⟩)] b =
      some ⟨b, exB, [B]⟩ := getA_pair_right hab
  have hpp : allPpidsPresent [(a, ⟨a, exA, [A]⟩), (b, ⟨b, exB, [B]⟩)] =
      true := by simp [allPpidsPresent, hga, hgb]
  obtain ⟨m, hm⟩ := Option.isSome_iff_exists.mp
    (@connmOf_total localIps interfaces _ hn hpp)
  have hm2 := hm
  unfold connmOf at hm2
  obtain ⟨m1, hs1, hrest⟩ := foldlM_cons_some hm2
  obtain ⟨m2, hs2, hfin⟩ := foldlM_cons_some hrest
  have hm2m : m2 = m := by simpa using hfin
  rw [hm2m] at hs2
  rw [procStep_eval (e := (a, ⟨a, exA, [A]⟩)) hga] at hs1
  dsimp only at hs1
  have hd1 := foldlM_singleton hs1
  rw [procStep_eval (e := (b, ⟨b, exB, [B]⟩)) hgb] at hs2
  dsimp only at hs2
  have hd2 := foldlM_singleton hs2
  -- endpoint-map occurrences of the two descriptors
  have hepmB : EpmHas (buildEpm [(a, ⟨a, exA, [A]⟩), (b, ⟨b, exB, [B]⟩)])
      (A.type ++ ": " ++ A.peer) b 0 := by
    rw [epmHas_buildEpm_get hn]
    exact ⟨⟨b, exB, [B]⟩, B, hgb, rfl, hBs, htB, by rw [htyAB, hpsAB]⟩
  have hepmA : EpmHas (buildEpm [(a, ⟨a, exA, [A]⟩), (b, ⟨b, exB, [B]⟩)])
      (B.type ++ ": " ++ B.peer) a 0 := by
    rw [epmHas_buildEpm_get hn]
    exact ⟨⟨a, exA, [A]⟩, A, hga, rfl, hAs, htA, by rw [htyBA, hpsBA]⟩
  have haccB : acceptedCand (buildEpm [(a, ⟨a, exA, [A]⟩), (b, ⟨b, exB, [B]⟩)])
      [(a, ⟨a, exA, [A]⟩), (b, ⟨b, exB, [B]⟩)]
      (A.type ++ ": " ++ A.peer) A b B.descriptor :=
    ⟨⟨b, exB, [B]⟩, 0, B, hgb, hepmB, rfl, rfl, hrAB⟩
  -- the fresh map of the first process step holds only the parent key
  have hm0K1 : getA (setA ([] : Connm) ⟨a, -1, a, -1⟩
      (parentVal (a, ⟨a, exA, [A]⟩) ⟨a, exA, [A]⟩))
      ⟨a, A.descriptor, b, B.descriptor⟩ = none := by
    rw [getA_setA_ne _ _ _ _ (connKey_ne_k2 (Ne.symm hab))]
    rfl
  have hm0K2 : getA (setA ([] : Connm) ⟨a, -1, a, -1⟩
      (parentVal (a, ⟨a, exA, [A]⟩) ⟨a, exA, [A]⟩))
      ⟨b, B.descriptor, a, A.descriptor⟩ = none := by
    rw [getA_setA_ne _ _ _ _ (connKey_ne_k0 (Ne.symm hab))]
    rfl
  -- after the first process: the forward key is present
  have h1 := descStep_hit_keys htA hpA (epmHas_isSome hepmB) hd1
    b B.descriptor
  have hK1m1 : (getA m1 ⟨a, A.descriptor, b, B.descriptor⟩).isSome = true :=
    h1.mpr (Or.inr ⟨Ne.symm hab, by rw [hm0K2]; rfl, haccB⟩)
  -- ... and the reversed key is not
  have hK2m1 : getA m1 ⟨b, B.descriptor, a, A.descriptor⟩ = none := by
    cases hc : getA m1 ⟨b, B.descriptor, a, A.descriptor⟩ with
    | none => rfl
    | some v =>
      exfalso
      rcases descStep_sub hd1 _ (getA_mem hc) with hin | hnew
      · rcases mem_setA hin with heq | hnil
        · exact hab (congrArg (fun y : ConnKey × Connection => y.1.k0) heq).symm
        · simp at hnil
      · rcases hnew with ⟨_, hx⟩ | ⟨_, hx⟩ | ⟨_, _, _, _, _, hx⟩ |
          ⟨_, _, rpid, rp, rconn, i, _, _, _, _, _, hx⟩
        · exact hab
            ((congrArg (fun y : ConnKey × Connection => y.1.k0) hx).symm)
        · exact hab
            ((congrArg (fun y : ConnKey × Connection => y.1.k0) hx).symm)
        · have hb1 := congrArg (fun y : ConnKey × Connection => y.1.k0) hx
          simp only at hb1
          rw [hb1] at hb
          exact absurd hb (by decide)
        · exact hab
            ((congrArg (fun y : ConnKey × Connection => y.1.k0) hx).symm)
  -- the second process step: its start map keeps both facts
  have hK1m1s : (getA (setA m1 ⟨b, -1, b, -1⟩
      (parentVal (b, ⟨b, exB, [B]⟩) ⟨b, exB, [B]⟩))
      ⟨a, A.descriptor, b, B.descriptor⟩).isSome = true :=
    getA_isSome_setA _ _ _ _ hK1m1
  have hK2m1s : getA (setA m1 ⟨b, -1, b, -1⟩
      (parentVal (b, ⟨b, exB, [B]⟩) ⟨b, exB, [B]⟩))
      ⟨b, B.descriptor, a, A.descriptor⟩ = none := by
    rw [getA_setA_ne _ _ _ _ (connKey_ne_k2 hab)]
    exact hK2m1
  -- the dedup check of the second process discards the reversed key
  have h2 := descStep_hit_keys htB hpB (epmHas_isSome hepmA) hd2
    a A.descriptor
  have hK2m : getA m ⟨b, B.descriptor, a, A.descriptor⟩ = none := by
    cases hc : getA m ⟨b, B.descriptor, a, A.descriptor⟩ with
    | none => rfl
    | some v =>
      exfalso
      rcases h2.mp (by rw [hc]; rfl) with hl | ⟨_, hr, _⟩
      · rw [hK2m1s] at hl
        exact absurd hl (by decide)
      · rw [hK1m1s] at hr
        exact absurd hr (by decide)
  have hK1m : (getA m ⟨a, A.descriptor, b, B.descriptor⟩).isSome = true :=
    descStep_mono _ hd2 hK1m1s
  -- assemble the count
  obtain ⟨v1, hv1⟩ := Option.isSome_iff_exists.mp hK1m
  have hmem1 := getA_mem hv1
  have hmir := connmProv_mirror (connmOf_sub hm _ hmem1)
  have hP1 : (decide ((v1.self.pid = a ∧ v1.peer.pid = b) ∨
      (v1.self.pid = b ∧ v1.peer.pid = a))) = true := by
    have h01 : v1.self.pid = a := congrArg ConnKey.k0 hmir
    have h02 : v1.peer.pid = b := congrArg ConnKey.k2 hmir
    simp [h01, h02]
  have hcount : m.countP (fun kc =>
      decide ((kc.2.self.pid = a ∧ kc.2.peer.pid = b) ∨
        (kc.2.self.pid = b ∧ kc.2.peer.pid = a))) = 1 := by
    refine countP_eq_one_unique (connmOf_nodup hm)
      ⟨a, A.descriptor, b, B.descriptor⟩
      (fun c => decide ((c.self.pid = a ∧ c.peer.pid = b) ∨
        (c.self.pid = b ∧ c.peer.pid = a)))
      ⟨v1, hmem1, hP1⟩ ?_
    intro kc hkc hP
    have hprov := connmOf_sub hm kc hkc
    have hPp : (kc.2.self.pid = a ∧ kc.2.peer.pid = b) ∨
        (kc.2.self.pid = b ∧ kc.2.peer.pid = a) := by simpa using hP
    rcases pair_prov (Or.inl rfl) hab ha hb htA htB hprov hPp with h | h
    · exact h
    · exfalso
      obtain ⟨k, v⟩ := kc
      simp only at h
      subst h
      rw [getA_of_mem_nodup (connmOf_nodup hm) hkc] at hK2m
      exact absurd hK2m (by simp)
  rw [countBetween_eq_countP,
    countP_connections (fun c =>
      decide ((c.self.pid = a ∧ c.peer.pid = b) ∨
        (c.self.pid = b ∧ c.peer.pid = a))) hm]
  exact hcount

/-- Asymmetry of the sort comparator. -/
theorem goKeyLess_asymm {x y : ConnKey} (h : goKeyLess x y = true) :
    goKeyLess y x = false := by
  simp only [goKeyLess, Bool.or_eq_true, Bool.and_eq_true,
    decide_eq_true_eq] at h
  rw [Bool.eq_false_iff]
  intro hc
  simp only [goKeyLess, Bool.or_eq_true, Bool.and_eq_true,
    decide_eq_true_eq] at hc
  omega

/-- Totality of the derived order. -/
theorem goKeyLe_total (x y : ConnKey) :
    goKeyLe x y = false → goKeyLe y x = true := by
  unfold goKeyLe
  intro h
  have h2 : goKeyLess y x = true := by
    revert h
    cases goKeyLess y x <;> simp
  rw [goKeyLess_asymm h2]
  rfl

/-- Transitivity of the derived order. -/
theorem goKeyLe_trans (x y z : ConnKey) (h1 : goKeyLe x y = true)
    (h2 : goKeyLe y z = true) : goKeyLe x z = true := by
  unfold goKeyLe at h1 h2 ⊢
  have g1 : goKeyLess y x = false := by
    revert h1
    cases goKeyLess y x <;> simp
  have g2 : goKeyLess z y = false := by
    revert h2
    cases goKeyLess z y <;> simp
  have n1 : ¬(y.k0 < x.k0 ∨ (y.k0 = x.k0 ∧ (y.k2 < x.k2 ∨ (y.k2 = x.k2 ∧
      (y.k1 < x.k1 ∨ (y.k1 = x.k1 ∧ y.k3 < x.k3)))))) := by
    rw [Bool.eq_false_iff] at g1
    intro hp
    exact g1 (by simp only [goKeyLess, Bool.or_eq_true, Bool.and_eq_true,
      decide_eq_true_eq]; exact hp)
  have n2 : ¬(z.k0 < y.k0 ∨ (z.k0 = y.k0 ∧ (z.k2 < y.k2 ∨ (z.k2 = y.k2 ∧
      (z.k1 < y.k1 ∨ (z.k1 = y.k1 ∧ z.k3 < y.k3)))))) := by
    rw [Bool.eq_false_iff] at g2
    intro hp
    exact g2 (by simp only [goKeyLess, Bool.or_eq_true, Bool.and_eq_true,
      decide_eq_true_eq]; exact hp)
  have g3 : goKeyLess z x = false := by
    rw [Bool.eq_false_iff]
    intro hc
    simp only [goKeyLess, Bool.or_eq_true, Bool.and_eq_true,
      decide_eq_true_eq] at hc
    push_neg at n1 n2
    omega
  rw [g3]
  rfl

/-- The value stored under each key of a finished map carries that key. -/
theorem connm_val_key {m : Connm}
    (hm : connmOf localIps interfaces pt = some m) :
    ∀ k ∈ m.map Prod.fst, connKeyOf ((getA m k).getD default) = k := by
  intro k hk
  obtain ⟨v, hv⟩ := Option.isSome_iff_exists.mp
    (getA_isSome_iff_mem_keys.mpr hk)
  rw [hv]
  simpa using connmProv_mirror (connmOf_sub hm (k, v) (getA_mem hv))

theorem getA_isSome_setA_inv {K V : Type} [DecidableEq K] {m : List (K × V)}
    {k k2 : K} {v : V} (h : (getA (setA m k v) k2).isSome = true) :
    k2 = k ∨ (getA m k2).isSome = true := by
  by_cases he : k2 = k
  · exact Or.inl he
  · right
    rw [← getA_setA_ne m k k2 v he]
    exact h

/-- One insertion preserves the edge-map invariant provided the new key is
classified and its reverse is absent. -/
theorem emInv_setA {em : Em} {ka kb : Pid} {v : Edge}
    (hinv : emInv em) (hcls : emClassOK ka kb)
    (hrev : ka ≠ kb → (getA em (kb, ka)).isSome = true → False) :
    emInv (setA em (ka, kb) v) := by
  constructor
  · intro k2 hk2
    rcases getA_isSome_setA_inv hk2 with rfl | hk2'
    · exact hcls
    · exact hinv.1 k2 hk2'
  · intro p q hpq hc
    obtain ⟨h1, h2⟩ := hc
    rcases getA_isSome_setA_inv h1 with he1 | h1' <;>
      rcases getA_isSome_setA_inv h2 with he2 | h2'
    · injection he1 with hp hq
      injection he2 with hq2 hp2
      exact hpq (hp.trans hq2.symm)
    · injection he1 with hp hq
      subst hp
      subst hq
      exact hrev hpq h2'
    · injection he2 with hq hp
      subst hq
      subst hp
      exact hrev (Ne.symm hpq) h1'
    · exact hinv.2 p q hpq ⟨h1', h2'⟩

/-- One Nodegraph loop iteration preserves the edge-map invariant, for a
connection whose self pid is a process pid. -/
theorem edgeStep_inv {qpid : Pid} {tb : NTable} {em out : Em} {conn : NConn}
    (hs0 : (0 : Int) ≤ conn.self.pid) (hs1 : (conn.self.pid : Int) < maxInt32)
    (hinv : emInv em)
    (h : edgeStep qpid tb em conn = some out) : emInv out := by
  have hmax : (0 : Int) < maxInt32 := by decide
  unfold edgeStep at h
  split at h
  · cases h
    exact hinv
  next hguard =>
    simp only [not_or] at hguard
    have hne : conn.self.pid ≠ conn.peer.pid := hguard.2.2.2.2.1
    split at h
    · exact absurd h (by simp)
    · split at h
      next hneg =>
        have hneg2 : (conn.peer.pid : Int) < 0 := hneg
        split at h
        · exact absurd h (by simp)
        · cases h
          refine emInv_setA hinv (Or.inl ⟨hneg2, hs0, hs1⟩) ?_
          intro _ hrev
          have hcls := hinv.1 _ hrev
          simp only [emClassOK] at hcls
          rcases hcls with ⟨c1, _⟩ | ⟨_, c2, c3⟩ | ⟨_, _, c3, _⟩ <;>
            ((try simp only [Pid] at *); omega)
      next hneg =>
        have hneg2 : ¬(conn.peer.pid : Int) < 0 := hneg
        split at h
        next hbig =>
          have hbig2 : (maxInt32 : Int) ≤ conn.peer.pid := hbig
          split at h
          · cases h
            exact hinv
          · cases h
            refine emInv_setA hinv (Or.inr (Or.inl ⟨hs0, hs1, hbig2⟩)) ?_
            intro _ hrev
            have hcls := hinv.1 _ hrev
            simp only [emClassOK] at hcls
            rcases hcls with ⟨c1, _⟩ | ⟨_, c2, _⟩ | ⟨_, c2, _⟩ <;>
              ((try simp only [Pid] at *); omega)
        next hbig =>
          have hbig2 : ¬(maxInt32 : Int) ≤ conn.peer.pid := hbig
          split at h
          · exact absurd h (by simp)
          · split at h
            next e heq =>
              cases h
              refine emInv_setA hinv
                (hinv.1 _ (by rw [heq]; rfl)) ?_
              intro _ hrev
              exact hinv.2 _ _ hne ⟨by rw [heq]; rfl, hrev⟩
            next heq =>
              split at h
              next e heq2 =>
                cases h
                refine emInv_setA hinv
                  (hinv.1 _ (by rw [heq2]; rfl)) ?_
                intro _ hrev
                rw [heq] at hrev
                exact absurd hrev (by simp)
              next heq2 =>
                cases h
                refine emInv_setA hinv ?_ ?_
                · refine Or.inr (Or.inr ⟨hs0, hs1, ?_, ?_⟩) <;>
                    ((try simp only [Pid] at *); omega)
                · intro _ hrev
                  rw [heq2] at hrev
                  exact absurd hrev (by simp)

/-- A finished Nodegraph edge map satisfies the invariant. -/
theorem nodegraphEm_inv {qpid : Pid} {tb pt : NTable} {em : Em}
    (hwf : ∀ e ∈ pt, ∀ c ∈ e.2.conns,
      (0 : Int) ≤ c.self.pid ∧ (c.self.pid : Int) < maxInt32)
    (h : nodegraphEm qpid tb pt = some em) : emInv em := by
  unfold nodegraphEm at h
  refine foldlM_option_inv h ⟨?_, ?_⟩ ?_
  · intro k hk
    simp [getA] at hk
  · intro p q _ hc
    obtain ⟨h1, _⟩ := hc
    simp [getA] at h1
  · intro s e s2 he hs hinv
    refine foldlM_option_inv hs hinv ?_
    intro s3 c s4 hc hs3 hinv3
    exact edgeStep_inv (hwf e he c hc).1 (hwf e he c hc).2 hinv3 hs3

end ClaimHelpers

/-! ## Claim theorems -/

section ClaimTheorems

variable {localIps interfaces : List String}

/-- C1: for any two reciprocal descriptor records A (owned by process P)
and B (owned by process Q, P ≠ Q) that satisfy the reciprocal match
condition, one correlation pass emits exactly one Connection between P and
Q: the dedup check consults both key orientations against the connections
already recorded in the pass, so exactly one connection links the two
processes regardless of which of P or Q the table iteration visits
first. -/
theorem C1_reciprocal_pair_single_emission {a b : Pid} {exA exB : String}
    {A B : GoConn} {tbl : Table}
    (htbl : tbl = [(a, ⟨a, exA, [A]⟩), (b, ⟨b, exB, [B]⟩)] ∨
            tbl = [(b, ⟨b, exB, [B]⟩), (a, ⟨a, exA, [A]⟩)])
    (hab : a ≠ b) (ha : 0 ≤ a) (hb : 0 ≤ b)
    (htA : isTransport A.type = true) (htB : isTransport B.type = true)
    (hrAB : reciprocal A B = true) (hrBA : reciprocal B A = true)
    (hpA : A.peer ≠ "") (hpB : B.peer ≠ "") :
    countBetween a b (connections localIps interfaces tbl) = 1 := by
  rcases htbl with rfl | rfl
  · exact pair_count_aux hab ha hb htA htB hrAB hrBA hpA hpB
  · rw [countBetween_comm]
    exact pair_count_aux (Ne.symm hab) hb ha htB htA hrBA hrAB hpB hpA

/-- Witness for C1 at a concrete mutually reciprocal unix-socket pair. -/
theorem C1_reciprocal_pair_single_emission_witness :
    countBetween 2 3 (connections [] []
      [(2, ⟨2, "px", [⟨4, "unix", "n1", "0xa", "0xb"⟩]⟩),
       (3, ⟨3, "py", [⟨5, "unix", "n2", "0xb", "0xa"⟩]⟩)]) = 1 :=
  C1_reciprocal_pair_single_emission (Or.inl rfl) (by decide) (by decide)
    (by decide) (by decide) (by decide) (by decide) (by decide) (by decide)
    (by decide)

/-- C2 (amended): when the index lookup for a transport descriptor's peer
endpoint hits, a key `(pid, fd, rpid, rfd)` is newly occupied exactly when
`rpid` is a different process owning, at an index recorded under the key,
a record accepted by the code's `reciprocal` test (the candidate's type
equals this descriptor's type, the candidate's SELF string equals this
descriptor's PEER string, and the candidate's PEER string equals this
descriptor's SELF string or is empty for shared-memory/unix transports),
and the reversed key is not already recorded; every such candidate emits,
not only the first. -/
theorem C2_candidate_acceptance {epm : Epm} {pt : Table} {pid : Pid}
    {p : GoProcess} {connm out : Connm} {conn : GoConn}
    (ht : isTransport conn.type = true) (hpe : ¬conn.peer = "")
    (hhit : (getA epm (conn.type ++ ": " ++ conn.peer)).isSome = true)
    (h : descStep localIps interfaces epm pt pid p connm conn = some out)
    (rpid : Pid) (rfd : Int) :
    (getA out ⟨pid, conn.descriptor, rpid, rfd⟩).isSome = true ↔
      (getA connm ⟨pid, conn.descriptor, rpid, rfd⟩).isSome = true ∨
        (rpid ≠ pid ∧
         (getA connm ⟨rpid, rfd, pid, conn.descriptor⟩).isSome = false ∧
         acceptedCand epm pt (conn.type ++ ": " ++ conn.peer) conn rpid rfd) :=
  descStep_hit_keys ht hpe hhit h rpid rfd

/-- Witness for C2 on a concrete reciprocal unix pair. -/
theorem C2_candidate_acceptance_witness :
    (getA [((⟨1, 3, 2, 7⟩ : ConnKey),
        (⟨"unix", "na", ⟨1, 3, "e1", "sa"⟩, ⟨2, 7, "e2", "sb"⟩⟩ :
          Connection))] (⟨1, 3, 2, 7⟩ : ConnKey)).isSome = true ↔
      (getA ([] : Connm) ⟨1, 3, 2, 7⟩).isSome = true ∨
        ((2 : Pid) ≠ 1 ∧
         (getA ([] : Connm) ⟨2, 7, 1, 3⟩).isSome = false ∧
         acceptedCand
           (buildEpm [(1, ⟨1, "e1", [⟨3, "unix", "na", "sa", "sb"⟩]⟩),
             (2, ⟨2, "e2", [⟨7, "unix", "nb", "sb", "sa"⟩]⟩)])
           [(1, ⟨1, "e1", [⟨3, "unix", "na", "sa", "sb"⟩]⟩),
             (2, ⟨2, "e2", [⟨7, "unix", "nb", "sb", "sa"⟩]⟩)]
           ("unix" ++ ": " ++ "sb") ⟨3, "unix", "na", "sa", "sb"⟩ 2 7) :=
  @C2_candidate_acceptance [] []
    (buildEpm [(1, ⟨1, "e1", [⟨3, "unix", "na", "sa", "sb"⟩]⟩),
      (2, ⟨2, "e2", [⟨7, "unix", "nb", "sb", "sa"⟩]⟩)])
    [(1, ⟨1, "e1", [⟨3, "unix", "na", "sa", "sb"⟩]⟩),
      (2, ⟨2, "e2", [⟨7, "unix", "nb", "sb", "sa"⟩]⟩)]
    1 ⟨1, "e1", [⟨3, "unix", "na", "sa", "sb"⟩]⟩ []
    [(⟨1, 3, 2, 7⟩, ⟨"unix", "na", ⟨1, 3, "e1", "sa"⟩, ⟨2, 7, "e2", "sb"⟩⟩)]
    ⟨3, "unix", "na", "sa", "sb"⟩
    (by decide) (by decide) (by decide) (by decide) 2 7

/-- Counterexample to C2 as stated: the candidate record
`⟨7, "unix", "nb", "sb", ""⟩` fails the spec's acceptance predicate (its
peer string "" differs from the descriptor's self string "sa"), yet the
pass emits a connection between the two processes, because the code
compares the candidate's SELF string against the descriptor's PEER string
(roles swapped relative to the spec). -/
theorem C2_candidate_acceptance_counterexample :
    specAccepts ⟨3, "unix", "na", "sa", "sb"⟩ ⟨7, "unix", "nb", "sb", ""⟩ =
      false ∧
    countBetween 1 2 (connections [] []
      [(1, ⟨1, "e1", [⟨3, "unix", "na", "sa", "sb"⟩]⟩),
       (2, ⟨2, "e2", [⟨7, "unix", "nb", "sb", ""⟩]⟩)]) = 1 := by
  decide

/-- C3 (amended): for a tcp/udp descriptor with a non-empty peer string
absent from the endpoint index, the pass emits the external-host
connection (synthetic endpoint with pid -1, the owning process as the
other endpoint) exactly when the locality test on the peer string fails;
the parse result is not consulted on its own, so an unparseable peer
string (whose empty host is not local) still yields an external
connection. -/
theorem C3_external_emission {epm : Epm} {pt : Table} {pid : Pid}
    {p : GoProcess} {cm : Connm} {conn : GoConn}
    (ht : conn.type = "TCP" ∨ conn.type = "UDP")
    (hpe : ¬conn.peer = "")
    (hmiss : getA epm (conn.type ++ ": " ++ conn.peer) = none) :
    descStep localIps interfaces epm pt pid p cm conn =
      some (if hostIsLocal localIps interfaces conn.peer then cm
        else setA cm ⟨-1, -1, pid, conn.descriptor⟩
          { ftype := conn.type, name := conn.name,
            self := ⟨-1, -1, (goSplitHostPort conn.peer).2, conn.peer⟩,
            peer := ⟨pid, conn.descriptor, p.exec, conn.self⟩ }) := by
  cases hloc : hostIsLocal localIps interfaces conn.peer with
  | false =>
    rw [descStep_external ht hpe hmiss hloc]
    simp [hloc]
  | true =>
    rw [descStep_local ht hpe hmiss hloc]
    simp [hloc]

/-- Witness for C3 at a concrete unparseable peer string. -/
theorem C3_external_emission_witness :
    descStep [] [] [] [] 5 ⟨5, "e", []⟩ [] ⟨3, "TCP", "n", "x", "garbage"⟩ =
      some (if hostIsLocal [] [] "garbage" then []
        else setA [] ⟨-1, -1, 5, 3⟩
          { ftype := "TCP", name := "n",
            self := ⟨-1, -1, (goSplitHostPort "garbage").2, "garbage"⟩,
            peer := ⟨5, 3, "e", "x"⟩ }) :=
  C3_external_emission (Or.inl rfl) (by decide) rfl

/-- Counterexample to C3 as stated: the peer string "garbage" does not
parse as an IP host, yet the pass still emits the external connection
(one connection between the synthetic pid -1 and process 5), because the
split error is ignored and the empty host is merely found non-local. -/
theorem C3_external_emission_counterexample :
    goParseIP (goSplitHostPort "garbage").1 = none ∧
    countBetween (-1) 5 (connections [] []
      [(5, ⟨5, "e", [⟨3, "TCP", "n", "x", "garbage"⟩]⟩)]) = 1 := by
  decide

/-- C4: a transport descriptor (FIFO, PIPE, TCP, UDP or unix) whose peer
endpoint string is empty is a passive listener: processing it leaves the
pass's connection map unchanged, so it emits no Connection and never
appears as a self endpoint on its own. -/
theorem C4_listener_skip {epm : Epm} {pt : Table} {pid : Pid}
    {p : GoProcess} {cm : Connm} {conn : GoConn}
    (ht : isTransport conn.type = true) (hpe : conn.peer = "") :
    descStep localIps interfaces epm pt pid p cm conn = some cm :=
  descStep_listener ht hpe

/-- Witness for C4 at a concrete listening tcp descriptor. -/
theorem C4_listener_skip_witness :
    descStep [] [] [] [] 1 ⟨1, "e", []⟩ [] ⟨2, "TCP", "n", "s", ""⟩ =
      some [] :=
  C4_listener_skip (by decide) rfl

/-- C5 (amended): after a completed pass, the synthetic parent key
`(ppid, -1, pid, -1)` is occupied for EVERY table entry — including
processes whose parent is pid 0, pid 1 (the root supervisor), or the
process itself; the code records the parent connection unconditionally
before processing the entry's descriptors. -/
theorem C5_parent_connection_always {pt : Table} {m : Connm}
    (hm : connmOf localIps interfaces pt = some m)
    {e : Pid × GoProcess} (he : e ∈ pt) :
    (getA m ⟨e.2.ppid, -1, e.1, -1⟩).isSome = true :=
  connmOf_parent_present hm he

/-- Witness for C5 on a concrete two-process table. -/
theorem C5_parent_connection_always_witness :
    (getA [((⟨7, -1, 7, -1⟩ : ConnKey),
        (⟨"parent:7", "child:7", ⟨7, -1, "a", "parent"⟩,
          ⟨7, -1, "a", "child"⟩⟩ : Connection)),
      ((⟨7, -1, 9, -1⟩ : ConnKey),
        (⟨"parent:7", "child:9", ⟨7, -1, "a", "parent"⟩,
          ⟨9, -1, "b", "child"⟩⟩ : Connection))]
      ⟨(7 : Pid), -1, 9, -1⟩).isSome = true :=
  @C5_parent_connection_always [] [] [(7, ⟨7, "a", []⟩), (9, ⟨7, "b", []⟩)]
    [(⟨7, -1, 7, -1⟩,
        ⟨"parent:7", "child:7", ⟨7, -1, "a", "parent"⟩,
          ⟨7, -1, "a", "child"⟩⟩),
      (⟨7, -1, 9, -1⟩,
        ⟨"parent:7", "child:9", ⟨7, -1, "a", "parent"⟩,
          ⟨9, -1, "b", "child"⟩⟩)]
    (by decide) (9, ⟨7, "b", []⟩) (by decide)

/-- Counterexample to C5 as stated: process 5's parent is pid 1 (the root
supervisor), for which the claim promises no synthetic parent Connection,
yet the pass emits one connection between processes 1 and 5. -/
theorem C5_parent_connection_always_counterexample :
    countBetween 1 5 (connections [] []
      [(1, ⟨1, "init", []⟩), (5, ⟨1, "w", []⟩)]) = 1 := by
  decide

/-- C6 (amended): the endpoint index records an occurrence under
`(key, rpid, j)` exactly for table entries owning, at descriptor INDEX
`j`, a record with non-empty self string and transport type, keyed by
`type ++ ": " ++ self`; there is no additional entry for named unix
sockets, and the recorded occurrence is the conns-list index, not the
descriptor number. -/
theorem C6_endpoint_index (pt : Table) (key : String) (rpid : Pid)
    (j : Nat) :
    EpmHas (buildEpm pt) key rpid j ↔
      ∃ e ∈ pt, ∃ ic ∈ e.2.conns.enum, ic.2.self ≠ "" ∧
        isTransport ic.2.type = true ∧
        key = ic.2.type ++ ": " ++ ic.2.self ∧ rpid = e.1 ∧ j = ic.1 :=
  epmHas_buildEpm pt key rpid j

/-- Counterexample to C6 as stated: a named unix socket (descriptor 3,
self "sock") contributes exactly one index entry, keyed "unix: sock" and
holding the conns index 0 — there is no second entry and the descriptor
number 3 is not what the entry stores. -/
theorem C6_endpoint_index_counterexample :
    buildEpm [(1, ⟨1, "e", [⟨3, "unix", "sock", "sock", "0xabc"⟩]⟩)] =
      [("unix: sock", [(1, [0])])] := rfl

/-- C7 (amended): the output of a completed pass is sorted by the
comparator on (self pid, peer pid, self fd, peer fd); identical output
for every iteration order does NOT hold (see the counterexample), so only
the ordering half of the claim survives. -/
theorem C7_output_sorted {pt : Table} {m : Connm}
    (hm : connmOf localIps interfaces pt = some m) :
    (connections localIps interfaces pt).Pairwise
      (fun c d => goKeyLe (connKeyOf c) (connKeyOf d) = true) := by
  rw [connections_eq hm]
  rw [List.pairwise_map]
  refine List.Pairwise.imp_of_mem ?_
    (pairwise_sortByLe goKeyLe goKeyLe_total goKeyLe_trans
      (m.map Prod.fst))
  intro k1 k2 hk1 hk2 hle
  rw [mem_sortByLe] at hk1 hk2
  rw [connm_val_key hm k1 hk1, connm_val_key hm k2 hk2]
  exact hle

/-- Witness for C7 on a concrete one-process table. -/
theorem C7_output_sorted_witness :
    (connections [] [] [(2, ⟨2, "x", []⟩)]).Pairwise
      (fun c d => goKeyLe (connKeyOf c) (connKeyOf d) = true) :=
  C7_output_sorted
    (m := [(⟨2, -1, 2, -1⟩,
      ⟨"parent:2", "child:2", ⟨2, -1, "x", "parent"⟩,
        ⟨2, -1, "x", "child"⟩⟩)]) rfl

/-- Counterexample to C7 as stated: the same snapshot iterated in two
orders yields different output — the reciprocal unix pair is emitted in
the orientation of whichever owner is visited first, and the sort does
not normalize the direction. -/
theorem C7_output_sorted_counterexample :
    connections [] [] [(1, ⟨1, "e1", [⟨3, "unix", "na", "sa", "sb"⟩]⟩),
        (2, ⟨2, "e2", [⟨7, "unix", "nb", "sb", "sa"⟩]⟩)] ≠
      connections [] [] [(2, ⟨2, "e2", [⟨7, "unix", "nb", "sb", "sa"⟩]⟩),
        (1, ⟨1, "e1", [⟨3, "unix", "na", "sa", "sb"⟩]⟩)] := by
  decide

/-- C8 (amended): a panicking correlation pass returns the empty list to
its caller, but a panic during graph assembly is NOT silently converted
into a partial result: Nodegraph's recover stores the panic into the
response's error field (with no frames), so the graph request receives an
error. -/
theorem C8_recover_boundary {pt : Table} (r : String)
    (hfail : connectionsCore localIps interfaces pt = none) :
    connections localIps interfaces pt = [] ∧
      nodegraphRecover (Except.error r : Except String Em) =
        { frames := none, error := some ("nodegraph panic: " ++ r) } := by
  constructor
  · rw [connections, hfail]
    rfl
  · rfl

/-- Witness for C8 at a concrete panicking table (parent pid 3 missing). -/
theorem C8_recover_boundary_witness :
    connections [] [] [(5, ⟨3, "e", []⟩)] = [] ∧
      nodegraphRecover (Except.error "nil entry" : Except String Em) =
        { frames := none,
          error := some ("nodegraph panic: " ++ "nil entry") } :=
  C8_recover_boundary "nil entry" (by decide)

/-- Counterexample to C8 as stated: a Nodegraph pass over a connection
whose self pid has no table entry panics (the edge-map fold yields none),
and the recover boundary produces a response whose error field is set —
the caller receives an error, not a partial or empty graph. -/
theorem C8_recover_boundary_counterexample :
    nodegraphEm 0 [] [(2, ⟨1, "e", "n", [⟨"TCP", ⟨"s", 2⟩, ⟨"p", 3⟩⟩]⟩)] =
      none ∧
    (nodegraphRecover (Except.error "r" : Except String Em)).error ≠
      none := by
  decide

/-- C9: for every unordered pair of distinct nodes, a completed Nodegraph
edge map holds at most one edge — never one edge per direction — for any
table whose connections carry a process pid (in `[0, maxInt32)`) as their
self endpoint; a connection whose pair already has an edge in either
direction only extends that edge's label. -/
theorem C9_no_parallel_edges {qpid : Pid} {tb pt : NTable} {em : Em}
    (hwf : ∀ e ∈ pt, ∀ c ∈ e.2.conns,
      (0 : Int) ≤ c.self.pid ∧ (c.self.pid : Int) < maxInt32)
    (h : nodegraphEm qpid tb pt = some em) (p q : Pid) (hpq : p ≠ q) :
    ¬((getA em (p, q)).isSome = true ∧ (getA em (q, p)).isSome = true) :=
  (nodegraphEm_inv hwf h).2 p q hpq

/-- Witness for C9 on a concrete table with one connection per
direction: both merge into the single (2, 3) edge. -/
theorem C9_no_parallel_edges_witness :
    ¬((getA [(((2 : Pid), (3 : Pid)),
        (⟨"2 -> 3", 2, 3, "an[2]", "bn[3]",
          "an[2] ‑> bn[3]\nTCP:s1 ‑> s2\nTCP:s1 ‑> s2"⟩ : Edge))]
        ((2 : Pid), (3 : Pid))).isSome = true ∧
      (getA [(((2 : Pid), (3 : Pid)),
        (⟨"2 -> 3", 2, 3, "an[2]", "bn[3]",
          "an[2] ‑> bn[3]\nTCP:s1 ‑> s2\nTCP:s1 ‑> s2"⟩ : Edge))]
        ((3 : Pid), (2 : Pid))).isSome = true) :=
  @C9_no_parallel_edges 0
    [(2, ⟨0, "a", "an", []⟩), (3, ⟨0, "b", "bn", []⟩)]
    [(2, ⟨0, "a", "an", [⟨"TCP", ⟨"s1", 2⟩, ⟨"s2", 3⟩⟩]⟩),
      (3, ⟨0, "b", "bn", [⟨"TCP", ⟨"s2", 3⟩, ⟨"s1", 2⟩⟩]⟩)]
    [((2, 3),
      ⟨"2 -> 3", 2, 3, "an[2]", "bn[3]",
        "an[2] ‑> bn[3]\nTCP:s1 ‑> s2\nTCP:s1 ‑> s2"⟩)]
    (by decide) rfl 2 3 (by decide)

/-- C10: a process entry whose parent pid has no table entry makes the
pass dereference a missing entry; the panic is recovered and
`connections` returns the empty list, so every parent pid being present
is necessary for any non-empty result. -/
theorem C10_missing_parent_empty {pt : Table} {e : Pid × GoProcess}
    (he : e ∈ pt) (hmiss : getA pt e.2.ppid = none) :
    connections localIps interfaces pt = [] := by
  cases hc : connmOf localIps interfaces pt with
  | none =>
    rw [connections, connectionsCore, hc]
    rfl
  | some m =>
    exfalso
    obtain ⟨l1, l2, rfl⟩ := List.append_of_mem he
    unfold connmOf at hc
    obtain ⟨mid, h1, h2⟩ := foldlM_option_split hc
    obtain ⟨mid2, h3, _⟩ := foldlM_cons_some h2
    unfold procStep at h3
    rw [hmiss] at h3
    exact absurd h3 (by simp)

/-- Witness for C10 at a concrete table whose only entry names parent 9,
which is absent. -/
theorem C10_missing_parent_empty_witness :
    connections [] [] [(4, ⟨9, "e", []⟩)] = [] :=
  C10_missing_parent_empty (e := (4, ⟨9, "e", []⟩)) (by decide) (by decide)

end ClaimTheorems

end Gomon
